import Mathlib

/-!
A shallow embedding of the OpenVPN profile parser/editor of
`paranoid_openvpn` (`profile_parser.py`) and its hardening transform
(`main.py`), together with theorems checking the natural-language
specification against it.

A text file is modelled as a `List Line` where each `Line` is the
character list of one line without its terminating newline (Python's
`readlines` yields lines with the newline attached, but every reader
either strips the line or tests properties that the trailing newline
cannot affect, so this representation is faithful for
newline-terminated texts).  `str.upper` is modelled on the ASCII
letters, which is exact for every character that can influence the
substring checks in `cipher_strength`.
-/

namespace POVPN

abbrev Line := List Char

/-- The whitespace characters removed by Python's `str.strip()` (ASCII). -/
def isPySpace (c : Char) : Bool :=
  c = ' ' || c = '\t' || c = '\n' || c = '\r' || c = '\x0b' || c = '\x0c'

/-- Python `str.strip()`: drop whitespace from both ends. -/
def pyStrip (s : Line) : Line :=
  ((s.dropWhile isPySpace).reverse.dropWhile isPySpace).reverse

/-- Lower-case ASCII letter or digit: the `[a-z0-9]` class of the regexes. -/
def isAl (c : Char) : Bool :=
  ('a' ≤ c && c ≤ 'z') || ('0' ≤ c && c ≤ '9')

/-- The `[a-z\-\_0-9]` class of the regexes. -/
def isTagChar (c : Char) : Bool :=
  isAl c || c = '-' || c = '_'

/-- Prefix test: `leadMatch pat s` is Python's `s.startswith(pat)`. -/
def leadMatch : Line → Line → Bool
  | [], _ => true
  | _ :: _, [] => false
  | p :: ps, c :: cs => p == c && leadMatch ps cs

/-- Substring test: `hasSub pat s` is Python's `pat in s` (substring containment). -/
def hasSub (pat : Line) (s : Line) : Bool :=
  match s with
  | [] => leadMatch pat []
  | _ :: cs => leadMatch pat s || hasSub pat cs

/-- Python `line.split(" ", maxsplit=1)`: `some (before, after)` when the
line contains a space, split at the first one; `none` otherwise. -/
def splitSp : Line → Option (Line × Line)
  | [] => none
  | c :: cs =>
    if c = ' ' then some ([], cs)
    else (splitSp cs).map (fun p => (c :: p.1, p.2))

/-- ASCII model of Python `str.upper()` (character-wise). -/
def upperChar (c : Char) : Char :=
  if 'a' ≤ c && c ≤ 'z' then Char.ofNat (c.toNat - 32) else c

/-- One parsed element of a profile: the four `OVPNConfigParam` variants.
`inline` stores the tag as kept in `Inline._name` (brackets included) and
the body lines; `param` stores the directive name and optional value. -/
inductive Elem where
  | blank : Elem
  | comment (text : Line) : Elem
  | inline (tag : Line) (body : List Line) : Elem
  | param (nm : Line) (val : Option Line) : Elem
deriving Repr, DecidableEq

/-- Models `Comment.__init__`: stores the stripped comment line. -/
def mkComment (s : Line) : Elem := .comment (pyStrip s)

/-- Models `Inline.__init__`: strips the tag and each body line. -/
def mkInline (tag : Line) (body : List Line) : Elem :=
  .inline (pyStrip tag) (body.map pyStrip)

/-- Models `Parameter.__init__`: strips the name; `value.strip() if value else None`
(the empty string is falsy, so it is normalised to no value). -/
def mkParam (nm : Line) (v : Option Line) : Elem :=
  .param (pyStrip nm)
    (match v with
     | none => none
     | some t => if t.isEmpty then none else some (pyStrip t))

/-- The `.name` property of each variant (`None` for blank lines). -/
def nameOf : Elem → Option Line
  | .blank => none
  | .comment t => some t
  | .inline tag _ => some tag
  | .param nm _ => some nm

/-- The `.value` property of each variant (`"\n".join(value)` for inline). -/
def elemValue : Elem → Option Line
  | .blank => none
  | .comment _ => none
  | .inline _ body => some (List.intercalate ['\n'] body)
  | .param _ v => v

/-- The `__len__` of each variant: lines occupied in the source text. -/
def elemLen : Elem → Nat
  | .blank => 1
  | .comment _ => 1
  | .inline _ body => 2 + body.length
  | .param _ _ => 1

/-- Models `BlankLine.read`: succeeds iff the first line strips to nothing. -/
def blankRead : List Line → Option Elem
  | [] => none
  | l :: _ => if pyStrip l = [] then some .blank else none

/-- Models `Comment.read`: succeeds iff the raw first line starts with `#` or `;`. -/
def commentRead : List Line → Option Elem
  | [] => none
  | l :: _ =>
    if l.head? = some '#' || l.head? = some ';' then some (mkComment l) else none

/-- Does the list start with an `[a-z0-9]` character? -/
def headAl : Line → Bool
  | [] => false
  | c :: _ => isAl c

/-- Models `re.match` of `<([a-z0-9][a-z\-\_0-9]*[a-z0-9])>` against a line,
returning group 1 (the naked tag name).  The greedy middle with
backtracking matches exactly when the maximal `[a-z0-9_-]` run after `<`
has length at least two, starts and ends with `[a-z0-9]`, and is
immediately followed by `>`; anything after the `>` is ignored
(`re.match` anchors only at the start). -/
def tagScan (s : Line) : Option Line :=
  match s with
  | '<' :: rest =>
    let b := rest.takeWhile isTagChar
    if 2 ≤ b.length && headAl b && headAl b.reverse
        && ((rest.dropWhile isTagChar).head? == some '>') then
      some b
    else none
  | _ => none

/-- Scan `Inline.read`'s loop over `config[1:]`: collect body lines until
the first line that starts with the closer; `none` if it never occurs. -/
def scanBody (closer : Line) : List Line → Option (List Line)
  | [] => none
  | l :: ls =>
    if leadMatch closer l then some []
    else (scanBody closer ls).map (l :: ·)

inductive InlineErr where
  | notTag
  | unterminated
deriving Repr, DecidableEq

/-- Result of `Inline.read`: either a distinguished failure or an element. -/
inductive IRead where
  | error (e : InlineErr) : IRead
  | ok (e : Elem) : IRead
deriving Repr, DecidableEq

/-- Models `Inline.read`: distinguishes the not-a-tag failure from the
tag-never-closed (`UnterminatedBlock`) failure; both raise `ValueError`
in the source, so the document loader treats them alike. -/
def inlineReadE : List Line → IRead
  | [] => .error .notTag
  | l :: rest =>
    match tagScan (pyStrip l) with
    | none => .error .notTag
    | some b =>
      match scanBody ('<' :: '/' :: (b ++ ['>'])) rest with
      | none => .error .unterminated
      | some body => .ok (mkInline ('<' :: (b ++ ['>'])) body)

/-- The truthiness gate `re.match(r"[a-z0-9][a-z\-\_0-9]*[a-z0-9]", line)`
of `Parameter.read`: first character in `[a-z0-9]` and the following
`[a-z0-9_-]` run contains another `[a-z0-9]` character. -/
def paramGate : Line → Bool
  | [] => false
  | c :: cs => isAl c && (cs.takeWhile isTagChar).any isAl

/-- Models `Parameter.read`: gate on the stripped line, then split at the first
space (value absent when there is none). -/
def paramRead : List Line → Option Elem
  | [] => none
  | l :: _ =>
    let s := pyStrip l
    if paramGate s then
      match splitSp s with
      | some (a, b) => some (mkParam a (some b))
      | none => some (mkParam s none)
    else none

/-- The reader cascade of `OVPNConfig.read`: blank line, comment, inline
block, parameter, in this order. -/
def tryRead (cfg : List Line) : Option Elem :=
  (blankRead cfg) <|> (commentRead cfg) <|> (match inlineReadE cfg with
    | .ok e => some e
    | .error _ => none) <|> paramRead cfg

/-- Is the element exempt from name checks in `add` and `insert`
(`BlankLine` and `Comment` instances)? -/
def isExempt : Elem → Bool
  | .blank => true
  | .comment _ => true
  | _ => false

/-- The scan-replace-or-append loop of `OVPNConfig.add` for non-exempt
elements: on the first name match, replace in place if `existOk`, else
fail (`KeyError`); if no name matches, append. -/
def replaceOrAppend : List Elem → Elem → Bool → Option (List Elem)
  | [], e, _ => some [e]
  | x :: xs, e, ok =>
    if nameOf x = nameOf e then
      if ok then some (e :: xs) else none
    else
      (replaceOrAppend xs e ok).map (x :: ·)

/-- Models `OVPNConfig.add`: blank lines and comments are appended unchecked. -/
def addElem (ps : List Elem) (e : Elem) (existOk : Bool) : Option (List Elem) :=
  if isExempt e then some (ps ++ [e]) else replaceOrAppend ps e existOk

/-- The `while lines:` loop of `OVPNConfig.read`, with a fuel argument for
structural recursion.  Each iteration consumes `len(ele) ≥ 1` lines, so
fuel `lines.length` always suffices (see `loadFuel_congr`).  `none`
models both the `UnrecognizedLine` `ValueError` and the `KeyError`
escaping from `add` on a duplicate name. -/
def loadFuel : Nat → List Elem → List Line → Option (List Elem)
  | _, acc, [] => some acc
  | 0, _, _ :: _ => none
  | fuel + 1, acc, l :: ls =>
    match tryRead (l :: ls) with
    | none => none
    | some e =>
      match addElem acc e false with
      | none => none
      | some acc' => loadFuel fuel acc' (List.drop (elemLen e - 1) ls)

/-- Models `OVPNConfig.read` on the lines of a file: the loader. -/
def load (lines : List Line) : Option (List Elem) :=
  loadFuel lines.length [] lines

/-- The `write` method of each variant, as the list of emitted lines
(each implicitly newline-terminated).  `Parameter.write` tests the
truthiness of `_value`, so an empty stored value writes the bare name;
`Inline.write` rebuilds the tags from `_name[1:-1]`. -/
def writeElem : Elem → List Line
  | .blank => [[]]
  | .comment t => [t]
  | .inline tag body =>
    let naked := (tag.drop 1).dropLast
    ('<' :: (naked ++ ['>'])) :: body ++ [('<' :: '/' :: (naked ++ ['>']))]
  | .param nm v =>
    match v with
    | some t => if t.isEmpty then [nm] else [nm ++ ' ' :: t]
    | none => [nm]

/-- Models `OVPNConfig.write`: concatenate every element's rendering in order. -/
def serialize (doc : List Elem) : List Line :=
  (doc.map writeElem).flatten

/-- Models `OVPNConfig.__contains__`: does any element (of any kind) carry this
name? -/
def containsName (ps : List Elem) (k : Line) : Bool :=
  ps.any (fun e => nameOf e = some k)

/-- Outcome of a name-keyed operation: success, `KeyError`, or
`TypeError`. -/
inductive Res (α : Type) where
  | ok (a : α) : Res α
  | errKey : Res α
  | errType : Res α
deriving Repr, DecidableEq

/-- Models `OVPNConfig.__getitem__` with a `str` key: `TypeError` on a falsy
(empty) key, else the first element with that name, else `KeyError`. -/
def getByName (ps : List Elem) (k : Line) : Res Elem :=
  if k = [] then .errType
  else
    match ps.find? (fun e => nameOf e = some k) with
    | some e => .ok e
    | none => .errKey

/-- The scan of `OVPNConfig.__delitem__`: remove the first element with
the given name. -/
def delScan (k : Line) : List Elem → Option (List Elem)
  | [] => none
  | x :: xs =>
    if nameOf x = some k then some xs
    else (delScan k xs).map (x :: ·)

/-- Models `OVPNConfig.__delitem__` with a `str` key. -/
def delByName (ps : List Elem) (k : Line) : Res (List Elem) :=
  if k = [] then .errType
  else
    match delScan k ps with
    | some ps' => .ok ps'
    | none => .errKey

/-- Models `OVPNConfig.index`: note `start = start or 0` and `end = end or
len(self.params)` (an explicit `end=0` therefore means the document
length), and that the match position is counted by `enumerate` over the
slice `params[start:end]`, i.e. it is slice-relative. -/
def indexOp (ps : List Elem) (k : Line) (start : Option Nat) (stop : Option Nat) :
    Res Nat :=
  if k = [] then .errType
  else
    let s := match start with
      | none => 0
      | some v => v
    let e := match stop with
      | none => ps.length
      | some v => if v = 0 then ps.length else v
    match ((ps.drop s).take (e - s)).findIdx? (fun el => nameOf el = some k) with
    | some i => .ok i
    | none => .errKey

/-- Python `list.insert`: insert before position `i`, appending when `i`
is at least the length. -/
def pyInsert : List Elem → Nat → Elem → List Elem
  | ps, 0, e => e :: ps
  | [], _ + 1, e => [e]
  | p :: ps, i + 1, e => p :: pyInsert ps i e

/-- Does `param.name` test truthy (a name that is neither `None` nor
empty)? -/
def nameTruthy (e : Elem) : Bool :=
  match nameOf e with
  | some (_ :: _) => true
  | _ => false

/-- Is the element a `Comment` instance? -/
def isCommentE : Elem → Bool
  | .comment _ => true
  | _ => false

/-- Models `OVPNConfig.insert`: `KeyError` when the element has a truthy
name, is not a `Comment`, and `param.name in self` (where `__contains__`
matches the name of any element kind, comments included). -/
def insertElem (ps : List Elem) (i : Nat) (e : Elem) : Option (List Elem) :=
  if nameTruthy e && !(isCommentE e) && containsName ps ((nameOf e).getD []) then
    none
  else some (pyInsert ps i e)

/-- Is the element an `Inline` instance? -/
def isInlineE : Elem → Bool
  | .inline _ _ => true
  | _ => false

/-- Models `OVPNConfig.last_before_inline`: the smallest index holding an
`Inline` element, or the document length when there is none. -/
def lastBeforeInline (ps : List Elem) : Nat :=
  match ps.findIdx? isInlineE with
  | some i => i
  | none => ps.length

/-- The `CipherStrength` enum of `types.py`. -/
inductive Strength where
  | weak
  | acceptable
  | medium
  | strong
deriving Repr, DecidableEq

/-- The `TLSVersion` enum of `types.py`. -/
inductive TLSVersion where
  | v1_0
  | v1_1
  | v1_2
  | v1_3
deriving Repr, DecidableEq

/-- The `.value` of a `TLSVersion` member. -/
def TLSVersion.ver : TLSVersion → Line
  | .v1_0 => "1.0".toList
  | .v1_1 => "1.1".toList
  | .v1_2 => "1.2".toList
  | .v1_3 => "1.3".toList

/-- The `ProviderExtensions` enum of `types.py`. -/
inductive ProviderExt where
  | noExt
  | pia
deriving Repr, DecidableEq

/-- The per-element computation inside `cipher_strength` once
`self["cipher"]` has been resolved: take `.value.upper()` when the value
is truthy, else `None`, then run the ordered substring checks. -/
def strengthOfElem (e : Elem) : Strength :=
  let cv : Option Line :=
    match elemValue e with
    | none => none
    | some t => if t.isEmpty then none else some (t.map upperChar)
  match cv with
  | none => .weak
  | some c =>
    if hasSub ("256".toList) c || hasSub ("CHACHA20-POLY1305".toList) c then .strong
    else if hasSub ("192".toList) c then .medium
    else if hasSub ("128".toList) c || hasSub ("SEED-".toList) c
        || hasSub ("SM4-".toList) c then .acceptable
    else .weak

/-- Models `OVPNConfig.cipher_strength`: `self["cipher"]` may raise
`KeyError` when no element is named `cipher`; otherwise the strength is a
function of that element's value. -/
def cipherStrengthOp (ps : List Elem) : Res Strength :=
  match getByName ps ("cipher".toList) with
  | .ok e => .ok (strengthOfElem e)
  | .errKey => .errKey
  | .errType => .errType

/-- One best-effort deletion of `process_profile` / `process_pia`:
`KeyError` is caught and ignored, a `TypeError` would propagate. -/
def delOne (ps : List Elem) (n : Line) : Option (List Elem) :=
  match delByName ps n with
  | .ok ps' => some ps'
  | .errKey => some ps
  | .errType => none

/-- The deletion loop over the freshly built settings, using each
setting's `.name`. -/
def delSettings : List Elem → List Elem → Option (List Elem)
  | ps, [] => some ps
  | ps, e :: es =>
    match delOne ps ((nameOf e).getD []) with
    | none => none
    | some ps' => delSettings ps' es

/-- The insertion loop `for i, setting in enumerate(lines_to_insert,
start=anchor): config.insert(i, setting)`. -/
def insertAll : List Elem → Nat → List Elem → Option (List Elem)
  | ps, _, [] => some ps
  | ps, i, e :: es =>
    match insertElem ps i e with
    | none => none
    | some ps' => insertAll ps' (i + 1) es

/-- The strong/medium security parameter set of `process_profile`. -/
def strongSettings (minTLS : Line) : List Elem :=
  [ mkParam ("tls-version-min".toList) (some (minTLS ++ " or-highest".toList)),
    mkParam ("tls-cipher".toList)
      (some ("TLS-ECDHE-ECDSA-WITH-AES-256-GCM-SHA384:TLS-ECDHE-ECDSA-WITH-CHACHA20-POLY1305-SHA256:TLS-ECDHE-ECDSA-WITH-AES-256-CBC-SHA384".toList)),
    mkParam ("tls-groups".toList)
      (some ("secp521r1:X448:secp384r1:secp256r1:X25519".toList)),
    mkParam ("tls-ciphersuites".toList)
      (some ("TLS_AES_256_GCM_SHA384:TLS_CHACHA20_POLY1305_SHA256".toList)) ]

/-- The acceptable/weak security parameter set of `process_profile`. -/
def baseSettings (minTLS : Line) : List Elem :=
  [ mkParam ("tls-version-min".toList) (some (minTLS ++ " or-highest".toList)),
    mkParam ("tls-cipher".toList)
      (some ("TLS-ECDHE-ECDSA-WITH-AES-128-GCM-SHA256:TLS-ECDHE-ECDSA-WITH-CHACHA20-POLY1305-SHA256:TLS-ECDHE-ECDSA-WITH-AES-128-CBC-SHA256".toList)),
    mkParam ("tls-groups".toList)
      (some ("secp256r1:X25519".toList)),
    mkParam ("tls-ciphersuites".toList)
      (some ("TLS_AES_128_GCM_SHA256:TLS_CHACHA20_POLY1305_SHA256".toList)) ]

/-- The begin marker comment inserted around the hardening block. -/
def beginComment : Elem := mkComment ("# Begin Paranoid OpenVPN changes".toList)

/-- The end marker comment inserted around the hardening block. -/
def endComment : Elem := mkComment ("# End Paranoid OpenVPN changes".toList)

/-- The PIA cipher bundle for STRONG strength. -/
def piaStrong : List Elem :=
  [ mkParam ("cipher".toList) (some ("AES-256-GCM".toList)),
    mkParam ("data-ciphers".toList)
      (some ("AES-256-GCM:CHACHA20-POLY1305:AES-256-CBC".toList)),
    mkParam ("ncp-disable".toList) none ]

/-- The PIA cipher bundle for every other strength. -/
def piaBase : List Elem :=
  [ mkParam ("cipher".toList) (some ("AES-128-GCM".toList)),
    mkParam ("data-ciphers".toList)
      (some ("AES-128-GCM:CHACHA20-POLY1305:AES-128-CBC".toList)),
    mkParam ("ncp-disable".toList) none ]

/-- Models `process_pia`: recompute the strength, select the bundle,
record the `cipher` location (a `KeyError` from `index` propagates when
`cipher` is absent), delete the bundle names best-effort, and insert the
wrapped bundle at the recorded location. -/
def processPia (ps : List Elem) : Option (List Elem) :=
  match cipherStrengthOp ps with
  | .ok strength =>
    let bundle := if strength = .strong then piaStrong else piaBase
    match indexOp ps ("cipher".toList) none none with
    | .ok loc =>
      match delSettings ps bundle with
      | none => none
      | some ps1 =>
        insertAll ps1 loc
          (Elem.blank :: beginComment :: (bundle ++ [endComment, Elem.blank]))
    | _ => none
  | _ => none

/-- Models `process_profile`: classify the cipher (a `KeyError` from a
missing `cipher` propagates), build the settings for the minimum TLS
version, delete their names best-effort, insert the wrapped block at
`last_before_inline()`, and run the provider extension if requested.
The WEAK-strength warning is a side effect outside the document and is
not modelled. -/
def processProfile (ps : List Elem) (minTLS : TLSVersion) (ext : ProviderExt) :
    Option (List Elem) :=
  match cipherStrengthOp ps with
  | .ok strength =>
    let settings :=
      if strength = .strong ∨ strength = .medium then strongSettings minTLS.ver
      else baseSettings minTLS.ver
    match delSettings ps settings with
    | none => none
    | some ps1 =>
      match insertAll ps1 (lastBeforeInline ps1)
          (Elem.blank :: beginComment :: (settings ++ [endComment, Elem.blank])) with
      | none => none
      | some ps2 =>
        match ext with
        | .noExt => some ps2
        | .pia => processPia ps2
  | _ => none

/-! ### General lemmas about the document operations -/

theorem pyInsert_eq_take_drop (ps : List Elem) (i : Nat) (e : Elem) :
    pyInsert ps i e = ps.take i ++ e :: ps.drop i := by
  induction ps generalizing i with
  | nil => cases i <;> rfl
  | cons p ps ih =>
    cases i with
    | zero => rfl
    | succ j => simp [pyInsert, ih]

theorem nameTruthy_iff (e : Elem) :
    nameTruthy e = true ↔ ∃ n, nameOf e = some n ∧ n ≠ [] := by
  unfold nameTruthy
  cases h : nameOf e with
  | none => simp
  | some n => cases n <;> simp

theorem containsName_iff (ps : List Elem) (k : Line) :
    containsName ps k = true ↔ ∃ x ∈ ps, nameOf x = some k := by
  unfold containsName
  simp [List.any_eq_true]

/-! ### C10 -/

/-- C10: name-based lookup, name-based deletion, and `index` all reject the
empty string key with `TypeError` (the falsiness check fires before any
scan), never with `KeyError`/`NotFound`. -/
theorem c10_empty_key_type_error (doc : List Elem) (s e : Option Nat) :
    getByName doc [] = Res.errType ∧ delByName doc [] = Res.errType ∧
    indexOp doc [] s e = Res.errType := by
  refine ⟨?_, ?_, ?_⟩ <;> simp [getByName, delByName, indexOp]

/-! ### C4 -/

/-- C4 counterexample: on the empty document the `cipher` parameter is
absent, and `cipher_strength` fails with `KeyError` (`NotFound`) instead
of succeeding with WEAK as the claim states. -/
theorem c4_counterexample :
    cipherStrengthOp [] = Res.errKey ∧ Res.errKey ≠ Res.ok Strength.weak := by
  exact ⟨rfl, by decide⟩

/-- C4 amended: `cipher_strength` returns WEAK when the `cipher` element is
present but valueless (or stores an empty value), and fails with
`KeyError` when no element named `cipher` exists. -/
theorem c4_weak_or_keyerror (doc : List Elem) :
    (containsName doc ("cipher".toList) = false →
      cipherStrengthOp doc = Res.errKey) ∧
    (∀ nm, getByName doc ("cipher".toList) = Res.ok (Elem.param nm none) →
      cipherStrengthOp doc = Res.ok Strength.weak) ∧
    (∀ nm, getByName doc ("cipher".toList) = Res.ok (Elem.param nm (some [])) →
      cipherStrengthOp doc = Res.ok Strength.weak) := by
  refine ⟨?_, ?_, ?_⟩
  · intro h
    simp only [containsName, List.any_eq_false, decide_eq_true_eq] at h
    have hfind : doc.find? (fun e => nameOf e = some ("cipher".toList)) = none := by
      rw [List.find?_eq_none]
      intro x hx
      simpa using h x hx
    unfold cipherStrengthOp getByName
    rw [hfind]
    simp
  · intro nm h
    unfold cipherStrengthOp
    rw [h]
    rfl
  · intro nm h
    unfold cipherStrengthOp
    rw [h]
    rfl

/-- C4 witness: the amended statement evaluated at the empty document and
at a document holding a valueless `cipher`. -/
theorem c4_witness :
    cipherStrengthOp [] = Res.errKey ∧
    cipherStrengthOp [Elem.param ("cipher".toList) none] = Res.ok Strength.weak :=
  ⟨(c4_weak_or_keyerror []).1 (by decide),
   (c4_weak_or_keyerror [Elem.param ("cipher".toList) none]).2.1
     ("cipher".toList) (by decide)⟩

/-! ### C3 -/

/-- Case-insensitive substring containment, following the specification's
wording for `classifyCipherStrength` (both sides case-folded). -/
def ciHas (hay pat : Line) : Bool :=
  hasSub (pat.map upperChar) (hay.map upperChar)

/-- The classification described by the specification, as a pure function
of the `cipher` value: ordered, first-match-wins, case-insensitive
substring checks. -/
def specClassifyCipher (v : Line) : Strength :=
  if ciHas v ("256".toList) || ciHas v ("CHACHA20-POLY1305".toList) then .strong
  else if ciHas v ("192".toList) then .medium
  else if ciHas v ("128".toList) || ciHas v ("SEED-".toList)
      || ciHas v ("SM4-".toList) then .acceptable
  else .weak

/-- C3: when the document's `cipher` lookup yields a parameter carrying a
(nonempty) value `v`, `cipher_strength` returns exactly the
specification's pure, case-insensitive first-match classification of
`v`; the classification depends only on the case-folded value. -/
theorem c3_cipher_classification (doc : List Elem) (nm v : Line)
    (h : getByName doc ("cipher".toList) = Res.ok (Elem.param nm (some v)))
    (hv : v ≠ []) :
    cipherStrengthOp doc = Res.ok (specClassifyCipher v) ∧
    (∀ w : Line, w.map upperChar = v.map upperChar →
      specClassifyCipher w = specClassifyCipher v) := by
  constructor
  · unfold cipherStrengthOp
    rw [h]
    have hne : v.isEmpty = false := by
      cases v with
      | nil => exact absurd rfl hv
      | cons a as => rfl
    show Res.ok (strengthOfElem (Elem.param nm (some v))) = _
    unfold strengthOfElem specClassifyCipher ciHas
    simp only [elemValue, hne, Bool.false_eq_true, if_false]
    have u256 : ("256".toList).map upperChar = "256".toList := by decide
    have uch : ("CHACHA20-POLY1305".toList).map upperChar
        = "CHACHA20-POLY1305".toList := by decide
    have u192 : ("192".toList).map upperChar = "192".toList := by decide
    have u128 : ("128".toList).map upperChar = "128".toList := by decide
    have used : ("SEED-".toList).map upperChar = "SEED-".toList := by decide
    have usm4 : ("SM4-".toList).map upperChar = "SM4-".toList := by decide
    rw [u256, uch, u192, u128, used, usm4]
  · intro w hw
    unfold specClassifyCipher ciHas
    rw [hw]

/-- C3 witness: the theorem instantiated at a one-parameter document with
`cipher AES-256-CBC`. -/
theorem c3_witness :
    cipherStrengthOp [Elem.param ("cipher".toList) (some ("AES-256-CBC".toList))]
      = Res.ok (specClassifyCipher ("AES-256-CBC".toList)) :=
  (c3_cipher_classification
    [Elem.param ("cipher".toList) (some ("AES-256-CBC".toList))]
    ("cipher".toList) ("AES-256-CBC".toList) (by decide) (by decide)).1

/-! ### C9 -/

/-- C9: `index` with a nonzero `start` returns the offset inside the
`params[start:end]` slice, not the document position.  In the document
`[cipher …, hash …]`, the first element named `hash` in `[1, 2)` sits at
document position 1 (second conjunct), yet `index("hash", 1)` answers 0
(first conjunct) — `enumerate` is not offset by `start`, contradicting
the claim and the method's own `list.index()` docstring. -/
theorem c9_index_slice_relative :
    indexOp
      [Elem.param ("cipher".toList) (some ("AES-256-CBC".toList)),
       Elem.param ("hash".toList) (some ("sha256".toList))]
      ("hash".toList) (some 1) none = Res.ok 0 ∧
    List.findIdx? (fun e => nameOf e = some ("hash".toList))
      [Elem.param ("cipher".toList) (some ("AES-256-CBC".toList)),
       Elem.param ("hash".toList) (some ("sha256".toList))] = some 1 := by
  decide

/-! ### C5 -/

/-- C5 counterexample: the document `[Comment "x"]` holds no Parameter or
InlineBlock named `x` (second conjunct), so by the claim inserting
`Parameter("x")` must splice it in — but `insert` fails, because the
duplicate check `param.name in self` matches names of comments too. -/
theorem c5_counterexample :
    insertElem [Elem.comment ['x']] 0 (Elem.param ['x'] none) = none ∧
    ([Elem.comment ['x']].any fun e => !isExempt e && (nameOf e == some ['x'])) = false := by
  decide

/-- C5 amended: `insert(index, element)` fails with `DuplicateName` iff the
element has a nonempty name, is not a Comment, and ANY element of the
document — a Parameter, an InlineBlock, or equally a Comment — carries
that name; otherwise the element is spliced in before position `index`
(clamped to the end), shifting later elements. -/
theorem c5_insert_spec (ps : List Elem) (i : Nat) (e : Elem) :
    (insertElem ps i e = none ↔
      (isCommentE e = false ∧
        ∃ n, nameOf e = some n ∧ n ≠ [] ∧ ∃ x ∈ ps, nameOf x = some n)) ∧
    (∀ ps', insertElem ps i e = some ps' →
      ps' = ps.take i ++ e :: ps.drop i) := by
  constructor
  · unfold insertElem
    by_cases hc : (nameTruthy e && !isCommentE e
        && containsName ps ((nameOf e).getD [])) = true
    · rw [if_pos hc]
      simp only [Bool.and_eq_true, Bool.not_eq_eq_eq_not, Bool.not_true] at hc
      obtain ⟨⟨ht, hcm⟩, hcn⟩ := hc
      obtain ⟨n, hn, hne⟩ := (nameTruthy_iff e).mp ht
      simp only [true_iff]
      refine ⟨by simpa using hcm, n, hn, hne, ?_⟩
      have := (containsName_iff ps ((nameOf e).getD [])).mp hcn
      simpa [hn] using this
    · rw [if_neg hc]
      simp only [Bool.and_eq_true, not_and, Bool.not_eq_eq_eq_not, Bool.not_true] at hc
      constructor
      · intro hfalse
        exact absurd hfalse (by simp)
      · rintro ⟨hcm, n, hn, hne, x, hx, hxn⟩
        have ht : nameTruthy e = true := (nameTruthy_iff e).mpr ⟨n, hn, hne⟩
        have hcm' : isCommentE e = false := hcm
        have hcn : containsName ps ((nameOf e).getD []) = true := by
          rw [hn]
          exact (containsName_iff ps n).mpr ⟨x, hx, hxn⟩
        simp [ht, hcm', hcn] at hc
  · intro ps' h
    unfold insertElem at h
    by_cases hc : (nameTruthy e && !isCommentE e
        && containsName ps ((nameOf e).getD [])) = true
    · rw [if_pos hc] at h
      exact absurd h (by simp)
    · rw [if_neg hc] at h
      have heq := pyInsert_eq_take_drop ps i e
      simp only [Option.some.injEq] at h
      rw [← h, heq]

/-- C5 witness: inserting `hash sha256` at position 1 of a one-parameter
document succeeds and splices it at that position. -/
theorem c5_witness :
    insertElem [Elem.param ("cipher".toList) (some ("AES-256-CBC".toList))] 1
      (Elem.param ("hash".toList) (some ("sha256".toList)))
    = some [Elem.param ("cipher".toList) (some ("AES-256-CBC".toList)),
            Elem.param ("hash".toList) (some ("sha256".toList))] := by
  have h := (c5_insert_spec
    [Elem.param ("cipher".toList) (some ("AES-256-CBC".toList))] 1
    (Elem.param ("hash".toList) (some ("sha256".toList)))).2
  have hs : insertElem [Elem.param ("cipher".toList) (some ("AES-256-CBC".toList))] 1
      (Elem.param ("hash".toList) (some ("sha256".toList))) ≠ none := by decide
  cases hres : insertElem [Elem.param ("cipher".toList) (some ("AES-256-CBC".toList))] 1
      (Elem.param ("hash".toList) (some ("sha256".toList))) with
  | none => exact absurd hres hs
  | some ps' =>
    rw [h ps' hres]
    rfl

/-! ### C7 -/

/-- A well-formed naked inline tag name as the source's regex accepts it:
at least two characters drawn from `[a-z0-9_-]`, the first and the last
being `[a-z0-9]`. -/
def GoodName (b : Line) : Prop :=
  ∃ c mid d, b = c :: (mid ++ [d]) ∧ isAl c = true ∧ isAl d = true ∧
    ∀ x ∈ b, isTagChar x = true

theorem takeWhile_all_append {p : Char → Bool} (b : Line) (x : Char) (t : Line)
    (hb : ∀ c ∈ b, p c = true) (hx : p x = false) :
    (b ++ x :: t).takeWhile p = b ∧ (b ++ x :: t).dropWhile p = x :: t := by
  induction b with
  | nil => simp [List.takeWhile, List.dropWhile, hx]
  | cons a b ih =>
    have ha : p a = true := hb a (by simp)
    have ih' := ih (fun c hc => hb c (by simp [hc]))
    simp [List.takeWhile_cons, List.dropWhile_cons, ha, ih'.1, ih'.2]

theorem tagScan_eq_some_iff (s : Line) (b : Line) :
    tagScan s = some b ↔ ∃ t, s = '<' :: (b ++ '>' :: t) ∧ GoodName b := by
  constructor
  · intro h
    unfold tagScan at h
    split at h
    next rest =>
      by_cases hc : (2 ≤ (rest.takeWhile isTagChar).length
          && headAl (rest.takeWhile isTagChar)
          && headAl (rest.takeWhile isTagChar).reverse
          && ((rest.dropWhile isTagChar).head? == some '>')) = true
      · simp only [hc, if_true, Option.some.injEq] at h
        subst h
        simp only [Bool.and_eq_true, beq_iff_eq] at hc
        obtain ⟨⟨⟨hlen, hhd⟩, hlast⟩, hdrop⟩ := hc
        obtain ⟨t, ht⟩ : ∃ t, rest.dropWhile isTagChar = '>' :: t := by
          cases hd : rest.dropWhile isTagChar with
          | nil => rw [hd] at hdrop; simp at hdrop
          | cons y ys =>
            rw [hd] at hdrop
            simp only [List.head?_cons, Option.some.injEq] at hdrop
            exact ⟨ys, by rw [hdrop]⟩
        refine ⟨t, ?_, ?_⟩
        · have hsp := List.takeWhile_append_dropWhile (p := isTagChar) (l := rest)
          rw [ht] at hsp
          rw [hsp]
        · set bb := rest.takeWhile isTagChar with hbb
          have hbne : bb ≠ [] := by
            intro hnil
            rw [hnil] at hlen
            simp at hlen
          obtain ⟨c, cs, hcs⟩ := List.exists_cons_of_ne_nil hbne
          have hcsne : cs ≠ [] := by
            intro hnil
            rw [hcs, hnil] at hlen
            simp at hlen
          obtain ⟨d, hd⟩ : ∃ d, cs.getLast? = some d := by
            cases hg : cs.getLast? with
            | none => exact absurd (List.getLast?_eq_none_iff.mp hg) hcsne
            | some d => exact ⟨d, rfl⟩
          refine ⟨c, cs.dropLast, d, ?_, ?_, ?_, ?_⟩
          · rw [hcs, List.dropLast_append_getLast? d hd]
          · rw [hcs] at hhd
            simpa [headAl] using hhd
          · rw [← List.head?_reverse] at hd
            have : bb.reverse.head? = some d := by
              rw [hcs]
              simp only [List.reverse_cons]
              simp [List.head?_append, hd]
            cases hr : bb.reverse with
            | nil => rw [hr] at this; simp at this
            | cons y ys =>
              rw [hr] at this
              simp only [List.head?_cons, Option.some.injEq] at this
              rw [hr] at hlast
              simpa [headAl, this] using hlast
          · intro x hx
            exact List.mem_takeWhile_imp hx
      · rw [if_neg hc] at h
        exact absurd h (by simp)
    next hns => exact absurd h (by simp)
  · rintro ⟨t, hs, c, mid, d, hb, hc, hd, hall⟩
    have hgt : isTagChar '>' = false := by decide
    have hsplit := takeWhile_all_append (p := isTagChar) b '>' t hall hgt
    unfold tagScan
    rw [hs]
    simp only [hsplit.1, hsplit.2]
    have h1 : 2 ≤ b.length := by
      rw [hb]
      simp
    have h2 : headAl b = true := by
      rw [hb]
      simpa [headAl] using hc
    have h3 : headAl b.reverse = true := by
      rw [hb]
      simp only [List.reverse_cons, List.reverse_append]
      simpa [headAl] using hd
    simp [h1, h2, h3]

theorem scanBody_eq_none (closer : Line) (ls : List Line)
    (h : ∀ x ∈ ls, leadMatch closer x = false) : scanBody closer ls = none := by
  induction ls with
  | nil => rfl
  | cons l ls ih =>
    have hl := h l (by simp)
    simp [scanBody, hl, ih (fun x hx => h x (by simp [hx]))]

theorem scanBody_eq_some (closer : Line) (body : List Line) (cl : Line)
    (tail : List Line) (hb : ∀ x ∈ body, leadMatch closer x = false)
    (hcl : leadMatch closer cl = true) :
    scanBody closer (body ++ cl :: tail) = some body := by
  induction body with
  | nil => simp [scanBody, hcl]
  | cons l ls ih =>
    have hl := hb l (by simp)
    simp [scanBody, hl, ih (fun x hx => hb x (by simp [hx]))]

theorem pyStrip_id_of_ends (l : Line)
    (h1 : ∀ c, l.head? = some c → isPySpace c = false)
    (h2 : ∀ c, l.getLast? = some c → isPySpace c = false) :
    pyStrip l = l := by
  unfold pyStrip
  have hd : l.dropWhile isPySpace = l := by
    cases l with
    | nil => rfl
    | cons a as => simp [List.dropWhile_cons, h1 a rfl]
  rw [hd]
  have hr : l.reverse.dropWhile isPySpace = l.reverse := by
    cases hrl : l.reverse with
    | nil => rfl
    | cons a as =>
      have : l.getLast? = some a := by
        rw [← List.head?_reverse, hrl]
        rfl
      simp [List.dropWhile_cons, h2 a this]
  rw [hr, List.reverse_reverse]

/-- C7 counterexample.  First conjunct: the tag `<a>` — a one-character
name, well-formed per the claim — is rejected by `Inline.read` (the regex
demands two characters).  Second conjunct: with lines
`["<ca>", "</ca>x", "</ca>"]` the first line EQUAL to the closer is at
index 2, so the claim predicts a body of one line; the code stops at
`"</ca>x"` because it only tests `startswith`, yielding an empty body.
Third conjunct: a first line `"<ca>junk"` is not an opening tag, yet
`Inline.read` accepts it (`re.match` ignores trailing text). -/
theorem c7_counterexample :
    inlineReadE ["<a>".toList, "</a>".toList] = IRead.error InlineErr.notTag ∧
    inlineReadE ["<ca>".toList, "</ca>x".toList, "</ca>".toList]
      = IRead.ok (Elem.inline ("<ca>".toList) []) ∧
    inlineReadE ["<ca>junk".toList, "</ca>".toList]
      = IRead.ok (Elem.inline ("<ca>".toList) []) := by
  decide

/-- C7 amended: `Inline.read` succeeds exactly when the stripped first
line STARTS WITH `<name>` for a name of TWO or more `[a-z0-9_-]`
characters whose first and last characters are `[a-z0-9]`; it then
consumes the opening line, the body lines, and the first subsequent line
that STARTS WITH the matching `</name>` closer (2 + body-count lines in
all, body stored stripped); it fails with `UnterminatedBlock` when no
such line occurs before the input ends. -/
theorem c7_inline_read_spec (l : Line) (rest : List Line) :
    ((¬ ∃ b t, pyStrip l = '<' :: (b ++ '>' :: t) ∧ GoodName b) →
      inlineReadE (l :: rest) = IRead.error InlineErr.notTag) ∧
    (∀ b t, pyStrip l = '<' :: (b ++ '>' :: t) → GoodName b →
      (((∀ x ∈ rest, leadMatch ('<' :: '/' :: (b ++ ['>'])) x = false) →
        inlineReadE (l :: rest) = IRead.error InlineErr.unterminated) ∧
       (∀ body cl tail, rest = body ++ cl :: tail →
        (∀ x ∈ body, leadMatch ('<' :: '/' :: (b ++ ['>'])) x = false) →
        leadMatch ('<' :: '/' :: (b ++ ['>'])) cl = true →
        inlineReadE (l :: rest)
          = IRead.ok (Elem.inline ('<' :: (b ++ ['>'])) (body.map pyStrip)) ∧
        elemLen (Elem.inline ('<' :: (b ++ ['>'])) (body.map pyStrip))
          = 2 + body.length))) := by
  constructor
  · intro hno
    cases hts : tagScan (pyStrip l) with
    | none => simp only [inlineReadE]; rw [hts]
    | some b =>
      obtain ⟨t, ht, hg⟩ := (tagScan_eq_some_iff _ _).mp hts
      exact absurd ⟨b, t, ht, hg⟩ hno
  · intro b t hdec hg
    have hts : tagScan (pyStrip l) = some b :=
      (tagScan_eq_some_iff _ _).mpr ⟨t, hdec, hg⟩
    have htag : pyStrip ('<' :: (b ++ ['>'])) = '<' :: (b ++ ['>']) := by
      apply pyStrip_id_of_ends
      · intro c hc
        simp only [List.head?_cons, Option.some.injEq] at hc
        subst hc
        decide
      · intro c hc
        have : ('<' :: (b ++ ['>'])).getLast? = some '>' := by
          rw [← List.cons_append]
          exact List.getLast?_concat _
        rw [this] at hc
        simp only [Option.some.injEq] at hc
        subst hc
        decide
    constructor
    · intro hall
      simp only [inlineReadE]
      simp only [hts, scanBody_eq_none _ _ hall]
    · intro body cl tail hrest hb hcl
      have hscan : scanBody ('<' :: '/' :: (b ++ ['>'])) rest = some body := by
        rw [hrest]
        exact scanBody_eq_some _ _ _ _ hb hcl
      constructor
      · simp only [inlineReadE]
        simp only [hts, hscan]
        unfold mkInline
        rw [htag]
      · simp [elemLen]

/-- C7 witness: the amended behaviour evaluated on
`["<ca>", "body line", "</ca>extra"]`: the block is read back with the
body stripped and the `startswith`-matched closer consumed. -/
theorem c7_witness :
    inlineReadE ["<ca>".toList, " body ".toList, "</ca>extra".toList]
      = IRead.ok (Elem.inline ("<ca>".toList) ([" body ".toList].map pyStrip)) ∧
    elemLen (Elem.inline ("<ca>".toList) ([" body ".toList].map pyStrip))
      = 2 + [" body ".toList].length := by
  have hg : GoodName ("ca".toList) :=
    ⟨'c', [], 'a', by decide, by decide, by decide, by decide⟩
  have h := ((c7_inline_read_spec ("<ca>".toList)
      [" body ".toList, "</ca>extra".toList]).2 ("ca".toList) []
      (by decide) hg).2
      [" body ".toList] ("</ca>extra".toList) [] rfl
      (by decide) (by decide)
  exact h

/-! ### C8 -/

theorem head?_dropWhile_not (p : Char → Bool) (l : Line) :
    ∀ c, (l.dropWhile p).head? = some c → p c = false := by
  induction l with
  | nil => intro c hc; simp at hc
  | cons a as ih =>
    intro c hc
    rw [List.dropWhile_cons] at hc
    by_cases ha : p a = true
    · rw [if_pos ha] at hc
      exact ih c hc
    · rw [if_neg ha] at hc
      simp only [List.head?_cons, Option.some.injEq] at hc
      subst hc
      simpa using ha

theorem pyStrip_idem (l : Line) : pyStrip (pyStrip l) = pyStrip l := by
  apply pyStrip_id_of_ends
  · intro c hc
    unfold pyStrip at hc
    set A := l.dropWhile isPySpace with hA
    set B := A.reverse.dropWhile isPySpace with hB
    rw [List.head?_reverse] at hc
    have hBne : B ≠ [] := by
      intro hnil
      rw [hnil] at hc
      simp at hc
    obtain ⟨u, hu⟩ : ∃ u, u ++ B = A.reverse := (List.dropWhile_suffix isPySpace)
    have : A.reverse.getLast? = some c := by
      rw [← hu, List.getLast?_append_of_ne_nil _ hBne]
      exact hc
    rw [List.getLast?_reverse] at this
    exact head?_dropWhile_not isPySpace l c this
  · intro c hc
    unfold pyStrip at hc
    rw [List.getLast?_reverse] at hc
    exact head?_dropWhile_not isPySpace _ c hc

/-- The prefix pattern that `Parameter.read`'s regex gate accepts on the
stripped line: a `[a-z0-9]` character, then `[a-z0-9_-]` characters, then
another `[a-z0-9]` character (so at least two characters), with arbitrary
trailing text. -/
def ParamPat (s : Line) : Prop :=
  ∃ c mid d t, s = c :: (mid ++ d :: t) ∧ isAl c = true ∧
    (∀ x ∈ mid, isTagChar x = true) ∧ isAl d = true

theorem takeWhile_append_all {p : Char → Bool} (b r : Line)
    (hb : ∀ c ∈ b, p c = true) : (b ++ r).takeWhile p = b ++ r.takeWhile p := by
  induction b with
  | nil => simp
  | cons a bs ih =>
    have ha := hb a (by simp)
    simp [List.takeWhile_cons, ha, ih (fun c hc => hb c (by simp [hc]))]

theorem isAl_isTagChar {c : Char} (h : isAl c = true) : isTagChar c = true := by
  simp [isTagChar, h]

theorem paramGate_iff (s : Line) : paramGate s = true ↔ ParamPat s := by
  constructor
  · intro h
    cases s with
    | nil => simp [paramGate] at h
    | cons c cs =>
      simp only [paramGate, Bool.and_eq_true, List.any_eq_true] at h
      obtain ⟨hc, d, hd, hda⟩ := h
      obtain ⟨u, v, huv⟩ := List.append_of_mem hd
      refine ⟨c, u, d, v ++ cs.dropWhile isTagChar, ?_, hc, ?_, hda⟩
      · have hsp := List.takeWhile_append_dropWhile (p := isTagChar) (l := cs)
        rw [huv] at hsp
        calc c :: cs = c :: ((u ++ d :: v) ++ cs.dropWhile isTagChar) := by rw [hsp]
          _ = c :: (u ++ d :: (v ++ cs.dropWhile isTagChar)) := by
              simp [List.append_assoc]
      · intro x hx
        exact List.mem_takeWhile_imp (by rw [huv]; simp [hx])
  · rintro ⟨c, mid, d, t, hs, hc, hmid, hd⟩
    rw [hs]
    simp only [paramGate, Bool.and_eq_true, List.any_eq_true]
    refine ⟨hc, d, ?_, hd⟩
    rw [takeWhile_append_all mid (d :: t) hmid]
    simp [List.takeWhile_cons, isAl_isTagChar hd]

theorem splitSp_eq_none_iff (s : Line) : splitSp s = none ↔ ' ' ∉ s := by
  induction s with
  | nil => simp [splitSp]
  | cons c cs ih =>
    simp only [splitSp, List.mem_cons]
    by_cases hc : c = ' '
    · simp [hc]
    · rw [if_neg hc, Option.map_eq_none', ih]
      have hne : ¬ (' ' = c) := fun h => hc h.symm
      simp [hne]

theorem splitSp_eq_some_iff (s a b : Line) :
    splitSp s = some (a, b) ↔ s = a ++ ' ' :: b ∧ ' ' ∉ a := by
  induction s generalizing a with
  | nil =>
    simp only [splitSp]
    constructor
    · intro h
      exact absurd h (by simp)
    · rintro ⟨hs, -⟩
      exact absurd hs (by simp)
  | cons c cs ih =>
    simp only [splitSp]
    by_cases hc : c = ' '
    · subst hc
      rw [if_pos rfl]
      cases a with
      | nil => simp [eq_comm]
      | cons x xs =>
        constructor
        · intro h
          exact absurd h (by simp)
        · rintro ⟨hs, hna⟩
          rw [List.cons_append] at hs
          obtain ⟨hx, -⟩ := List.cons.inj hs
          exact absurd (by rw [← hx]; exact List.mem_cons_self _ _) hna
    · rw [if_neg hc]
      cases a with
      | nil =>
        constructor
        · intro h
          cases hsp : splitSp cs with
          | none => rw [hsp] at h; exact absurd h (by simp)
          | some q => rw [hsp] at h; exact absurd h (by simp)
        · rintro ⟨hs, -⟩
          rw [List.nil_append] at hs
          obtain ⟨hx, -⟩ := List.cons.inj hs
          exact absurd hx hc
      | cons x xs =>
        constructor
        · intro h
          cases hsp : splitSp cs with
          | none => rw [hsp] at h; exact absurd h (by simp)
          | some q =>
            rw [hsp] at h
            obtain ⟨q1, q2⟩ := q
            simp only [Option.map_some', Option.some.injEq, Prod.mk.injEq] at h
            obtain ⟨hcons, hb⟩ := h
            obtain ⟨hx, hq1⟩ := List.cons.inj hcons
            have hcs : splitSp cs = some (xs, b) := by rw [hsp, hq1, hb]
            obtain ⟨hdec, hnxs⟩ := (ih xs).mp hcs
            subst hx
            refine ⟨by rw [List.cons_append, hdec], ?_⟩
            simp only [List.mem_cons, not_or]
            exact ⟨fun h => hc h.symm, hnxs⟩
        · rintro ⟨hs, hna⟩
          rw [List.cons_append] at hs
          obtain ⟨hx, hcs⟩ := List.cons.inj hs
          have hnxs : ' ' ∉ xs := fun hin => hna (List.mem_cons_of_mem _ hin)
          rw [(ih xs).mpr ⟨hcs, hnxs⟩]
          rw [hx]
          rfl

/-- C8 counterexample.  `"x"` and `"Cipher AES-256-CBC"` are non-blank
lines without comment or tag syntax, yet `Parameter.read` rejects them
(the gate regex needs at least two `[a-z0-9_-]` characters starting
lower-case), and `"x"` alone makes the loader fail (`UnrecognizedLine`).
`"ab\tcd"` contains a whitespace run but no space, so instead of
splitting into `("ab", "cd")` the code yields a valueless parameter
whose name contains the tab. -/
theorem c8_counterexample :
    paramRead ["x".toList] = none ∧
    load ["x".toList] = none ∧
    paramRead ["Cipher AES-256-CBC".toList] = none ∧
    paramRead ["ab\tcd".toList] = some (Elem.param ("ab\tcd".toList) none) := by
  decide

/-- C8 amended: `Parameter.read` succeeds exactly when the stripped line
starts with `[a-z0-9][a-z0-9_-]*[a-z0-9]` (two or more characters); it
then splits at the first SPACE character (not any whitespace run) into
name and value, with the value absent when the line has no space, and
consumes one line.  A non-blank line that defeats every reader —
no comment prefix, no inline tag, and not matching this pattern (e.g. a
single-character or capitalised directive) — makes the loader fail with
`UnrecognizedLine`. -/
theorem c8_param_read_spec (l : Line) (tail : List Line) :
    (paramRead (l :: tail) = none ↔ ¬ ParamPat (pyStrip l)) ∧
    (ParamPat (pyStrip l) → ' ' ∉ pyStrip l →
      paramRead (l :: tail) = some (Elem.param (pyStrip l) none)) ∧
    (∀ a b, ParamPat (pyStrip l) → pyStrip l = a ++ ' ' :: b → ' ' ∉ a →
      paramRead (l :: tail) = some (Elem.param (pyStrip a)
        (if b.isEmpty then none else some (pyStrip b)))) ∧
    (tryRead (l :: tail) = none → load (l :: tail) = none) := by
  refine ⟨?_, ?_, ?_, ?_⟩
  · simp only [paramRead]
    by_cases hg : paramGate (pyStrip l) = true
    · rw [if_pos hg]
      cases hsp : splitSp (pyStrip l) with
      | none => simp [(paramGate_iff _).mp hg]
      | some p => simp [(paramGate_iff _).mp hg]
    · rw [if_neg hg]
      simp only [true_iff]
      intro hp
      exact hg ((paramGate_iff _).mpr hp)
  · intro hp hns
    have hg := (paramGate_iff _).mpr hp
    simp only [paramRead, if_pos hg]
    rw [(splitSp_eq_none_iff _).mpr hns]
    unfold mkParam
    rw [pyStrip_idem]
  · intro a b hp hs hna
    have hg := (paramGate_iff _).mpr hp
    simp only [paramRead, if_pos hg]
    rw [(splitSp_eq_some_iff _ a b).mpr ⟨hs, hna⟩]
    rfl
  · intro ht
    unfold load
    simp only [List.length_cons, loadFuel]
    rw [ht]

/-- C8 witness: the amended behaviour at the line `cipher AES-256-CBC`,
which splits at its first space. -/
theorem c8_witness :
    paramRead ["cipher AES-256-CBC".toList] = some (Elem.param
      (pyStrip ("cipher".toList))
      (if ("AES-256-CBC".toList).isEmpty then none
       else some (pyStrip ("AES-256-CBC".toList)))) :=
  (c8_param_read_spec ("cipher AES-256-CBC".toList) []).2.2.1
    ("cipher".toList) ("AES-256-CBC".toList)
    ⟨'c', [], 'i', "pher AES-256-CBC".toList, by decide, by decide, by decide, by decide⟩
    (by decide) (by decide)

/-! ### C6 -/

/-- The duplicate-checked key of an element: the name of a `Parameter` or
`Inline` block; comments and blank lines carry no key. -/
def keyName : Elem → Option Line
  | .param nm _ => some nm
  | .inline tag _ => some tag
  | _ => none

/-- How many `Parameter`/`Inline` elements of the document carry the key
`n`. -/
def keyCount (doc : List Elem) (n : Line) : Nat :=
  doc.countP (fun e => keyName e == some n)

/-- The amended invariant: at most one `Parameter`/`Inline` element per
NONEMPTY name. -/
def AtMostOneKey (doc : List Elem) : Prop :=
  ∀ n : Line, n ≠ [] → keyCount doc n ≤ 1

/-- Models `OVPNConfig.__delitem__` with a nonnegative `int` key: deletes
the element at the index, `IndexError` when out of range. -/
def delByIdx (ps : List Elem) (i : Nat) : Option (List Elem) :=
  if i < ps.length then some (ps.eraseIdx i) else none

/-- Documents constructible through the public API restricted to
`add(..., exist_ok=False)`: the empty config, a loaded file, and any
sequence of successful `insert`, deletion by name or index, and `add`. -/
inductive Reachable : List Elem → Prop where
  | empty : Reachable []
  | ofLoad (lines : List Line) (d : List Elem) :
      load lines = some d → Reachable d
  | ofInsert (d : List Elem) (i : Nat) (e : Elem) (d' : List Elem) :
      Reachable d → insertElem d i e = some d' → Reachable d'
  | ofDelName (d : List Elem) (k : Line) (d' : List Elem) :
      Reachable d → delByName d k = Res.ok d' → Reachable d'
  | ofDelIdx (d : List Elem) (i : Nat) (d' : List Elem) :
      Reachable d → delByIdx d i = some d' → Reachable d'
  | ofAdd (d : List Elem) (e : Elem) (d' : List Elem) :
      Reachable d → addElem d e false = some d' → Reachable d'

theorem keyName_nameOf (e : Elem) (n : Line) (h : keyName e = some n) :
    nameOf e = some n := by
  cases e <;> simp_all [keyName, nameOf]

theorem keyCount_of_not_contains (ps : List Elem) (n : Line)
    (h : containsName ps n = false) : keyCount ps n = 0 := by
  rw [keyCount, List.countP_eq_zero]
  intro e he
  simp only [beq_iff_eq]
  intro hk
  have hn := keyName_nameOf e n hk
  simp only [containsName, List.any_eq_false, decide_eq_true_eq] at h
  exact h e he hn

theorem keyCount_pyInsert (ps : List Elem) (i : Nat) (e : Elem) (n : Line) :
    keyCount (pyInsert ps i e) n
      = keyCount ps n + (if keyName e == some n then 1 else 0) := by
  rw [pyInsert_eq_take_drop, keyCount, List.countP_append, List.countP_cons]
  conv_rhs => rw [keyCount, ← List.take_append_drop i ps, List.countP_append]
  omega

theorem insertElem_preserves (ps : List Elem) (i : Nat) (e : Elem)
    (ps' : List Elem) (h : insertElem ps i e = some ps')
    (hin : AtMostOneKey ps) : AtMostOneKey ps' := by
  unfold insertElem at h
  by_cases hc : (nameTruthy e && !isCommentE e
      && containsName ps ((nameOf e).getD [])) = true
  · rw [if_pos hc] at h
    exact absurd h (by simp)
  · rw [if_neg hc] at h
    simp only [Option.some.injEq] at h
    subst h
    intro n hn
    rw [keyCount_pyInsert]
    by_cases hk : (keyName e == some n) = true
    · rw [if_pos hk]
      simp only [beq_iff_eq] at hk
      have hname : nameOf e = some n := keyName_nameOf e n hk
      have htruthy : nameTruthy e = true := by
        rw [nameTruthy, hname]
        cases n with
        | nil => exact absurd rfl hn
        | cons a as => rfl
      have hcmt : isCommentE e = false := by
        cases e <;> simp_all [keyName, isCommentE]
      have hcont : containsName ps ((nameOf e).getD []) = false := by
        by_contra hcc
        exact hc (by simp [htruthy, hcmt, eq_true_of_ne_false hcc])
      rw [hname] at hcont
      have := keyCount_of_not_contains ps n (by simpa using hcont)
      omega
    · rw [if_neg hk]
      simpa using hin n hn

theorem delScan_sublist (k : Line) (ps ps' : List Elem)
    (h : delScan k ps = some ps') : List.Sublist ps' ps := by
  induction ps generalizing ps' with
  | nil => simp [delScan] at h
  | cons x xs ih =>
    unfold delScan at h
    by_cases hx : nameOf x = some k
    · rw [if_pos hx] at h
      simp only [Option.some.injEq] at h
      subst h
      exact List.sublist_cons_self x xs
    · rw [if_neg hx] at h
      cases hrec : delScan k xs with
      | none => rw [hrec] at h; exact absurd h (by simp)
      | some ys =>
        rw [hrec] at h
        simp only [Option.map_some', Option.some.injEq] at h
        subst h
        exact List.Sublist.cons₂ x (ih ys hrec)

theorem sublist_preserves_atMostOne (ps ps' : List Elem)
    (h : List.Sublist ps' ps) (hin : AtMostOneKey ps) : AtMostOneKey ps' := by
  intro n hn
  exact le_trans (h.countP_le _) (hin n hn)

theorem replaceOrAppend_false_eq (ps : List Elem) (e : Elem) (ps' : List Elem)
    (h : replaceOrAppend ps e false = some ps') :
    ps' = ps ++ [e] ∧ ∀ x ∈ ps, ¬ nameOf x = nameOf e := by
  induction ps generalizing ps' with
  | nil =>
    simp only [replaceOrAppend, Option.some.injEq] at h
    subst h
    simp
  | cons x xs ih =>
    unfold replaceOrAppend at h
    by_cases hx : nameOf x = nameOf e
    · rw [if_pos hx] at h
      exact absurd h (by simp)
    · rw [if_neg hx] at h
      cases hrec : replaceOrAppend xs e false with
      | none => rw [hrec] at h; exact absurd h (by simp)
      | some ys =>
        rw [hrec] at h
        simp only [Option.map_some', Option.some.injEq] at h
        subst h
        obtain ⟨hys, hall⟩ := ih ys hrec
        refine ⟨by rw [hys, List.cons_append], ?_⟩
        intro y hy
        rcases List.mem_cons.mp hy with hxy | hxs
        · rw [hxy]; exact hx
        · exact hall y hxs

theorem addElem_false_preserves (ps : List Elem) (e : Elem) (ps' : List Elem)
    (h : addElem ps e false = some ps') (hin : AtMostOneKey ps) :
    AtMostOneKey ps' := by
  unfold addElem at h
  by_cases hex : isExempt e = true
  · rw [if_pos hex] at h
    simp only [Option.some.injEq] at h
    subst h
    intro n hn
    have hk : keyName e = none := by cases e <;> simp_all [isExempt, keyName]
    rw [keyCount, List.countP_append, List.countP_cons]
    have : (keyName e == some n) = false := by simp [hk]
    simp only [this, List.countP_nil]
    simpa [keyCount] using hin n hn
  · rw [if_neg hex] at h
    obtain ⟨hps', hall⟩ := replaceOrAppend_false_eq ps e ps' h
    subst hps'
    intro n hn
    rw [keyCount, List.countP_append, List.countP_cons]
    by_cases hk : (keyName e == some n) = true
    · simp only [beq_iff_eq] at hk
      have hname := keyName_nameOf e n hk
      have hzero : keyCount ps n = 0 := by
        rw [keyCount, List.countP_eq_zero]
        intro x hx
        simp only [beq_iff_eq]
        intro hkx
        exact hall x hx (by rw [keyName_nameOf x n hkx, hname])
      rw [keyCount] at hzero
      simp [hzero, hk]
    · have : (keyName e == some n) = false := by simpa using hk
      simp only [this, List.countP_nil]
      simpa [keyCount] using hin n hn

theorem loadFuel_preserves (fuel : Nat) (acc : List Elem) (ls : List Line)
    (d : List Elem) (h : loadFuel fuel acc ls = some d)
    (hin : AtMostOneKey acc) : AtMostOneKey d := by
  induction fuel generalizing acc ls with
  | zero =>
    cases ls with
    | nil =>
      simp only [loadFuel, Option.some.injEq] at h
      subst h
      exact hin
    | cons l ls => simp [loadFuel] at h
  | succ fuel ih =>
    cases ls with
    | nil =>
      simp only [loadFuel, Option.some.injEq] at h
      subst h
      exact hin
    | cons l ls =>
      simp only [loadFuel] at h
      cases htr : tryRead (l :: ls) with
      | none => simp only [htr] at h; exact absurd h (by simp)
      | some e =>
        simp only [htr] at h
        cases hadd : addElem acc e false with
        | none => simp only [hadd] at h; exact absurd h (by simp)
        | some acc' =>
          simp only [hadd] at h
          exact ih acc' _ h (addElem_false_preserves acc e acc' hadd hin)

/-- C6 counterexample.  First scenario: `insert` skips the duplicate check
for falsy (empty) names, so two `Parameter("")` elements can be inserted,
giving two Parameters with the same name.  Second scenario: `add` with
`exist_ok=True` replaces the FIRST element whose name matches — here a
same-named Comment — leaving the later `Parameter("x")` in place, so the
document ends with two Parameters named `x`.  Both documents are built
by public mutating operations alone. -/
theorem c6_counterexample :
    (insertElem [] 0 (Elem.param [] none) = some [Elem.param [] none] ∧
     insertElem [Elem.param [] none] 0 (Elem.param [] none)
       = some [Elem.param [] none, Elem.param [] none] ∧
     keyCount [Elem.param [] none, Elem.param [] none] [] = 2) ∧
    (insertElem [] 0 (Elem.param ['x'] none) = some [Elem.param ['x'] none] ∧
     insertElem [Elem.param ['x'] none] 0 (Elem.comment ['x'])
       = some [Elem.comment ['x'], Elem.param ['x'] none] ∧
     addElem [Elem.comment ['x'], Elem.param ['x'] none]
       (Elem.param ['x'] (some ['v'])) true
       = some [Elem.param ['x'] (some ['v']), Elem.param ['x'] none] ∧
     keyCount [Elem.param ['x'] (some ['v']), Elem.param ['x'] none] ['x'] = 2) := by
  decide

/-- C6 amended: every document produced by `load`, or built from the empty
document by any sequence of successful `insert`, `delete` (by name or
index), and `add` with `exist_ok=False`, contains at most one `Parameter`
or `InlineBlock` with any given NONEMPTY name; comments and blank lines
are exempt and may repeat.  (Empty-named elements escape `insert`'s
truthiness-guarded check, and `add` with `exist_ok=True` can overwrite a
same-named comment and thereby duplicate a parameter name, so both are
excluded.) -/
theorem c6_at_most_one_key (d : List Elem) (h : Reachable d) :
    AtMostOneKey d := by
  induction h with
  | empty => intro n _; simp [keyCount]
  | ofLoad lines d hl =>
    exact loadFuel_preserves _ _ _ _ hl (by intro n _; simp [keyCount])
  | ofInsert d i e d' _ hs ih => exact insertElem_preserves d i e d' hs ih
  | ofDelName d k d' _ hs ih =>
    unfold delByName at hs
    by_cases hk : k = []
    · rw [if_pos hk] at hs
      exact absurd hs (by simp)
    · rw [if_neg hk] at hs
      cases hscan : delScan k d with
      | none => rw [hscan] at hs; exact absurd hs (by simp)
      | some ys =>
        rw [hscan] at hs
        simp only [Res.ok.injEq] at hs
        subst hs
        exact sublist_preserves_atMostOne d ys (delScan_sublist k d ys hscan) ih
  | ofDelIdx d i d' _ hs ih =>
    unfold delByIdx at hs
    by_cases hi : i < d.length
    · rw [if_pos hi] at hs
      simp only [Option.some.injEq] at hs
      subst hs
      exact sublist_preserves_atMostOne d _ (List.eraseIdx_sublist d i) ih
    · rw [if_neg hi] at hs
      exact absurd hs (by simp)
  | ofAdd d e d' _ hs ih => exact addElem_false_preserves d e d' hs ih

/-- C6 witness: the invariant holds for a document built by inserting one
parameter into the empty document. -/
theorem c6_witness :
    AtMostOneKey [Elem.param ("cipher".toList) (some ("AES-256-CBC".toList))] :=
  c6_at_most_one_key _
    (Reachable.ofInsert [] 0 (Elem.param ("cipher".toList)
        (some ("AES-256-CBC".toList)))
      [Elem.param ("cipher".toList) (some ("AES-256-CBC".toList))]
      Reachable.empty (by decide))

/-! ### C2 -/

/-- How many elements of any kind carry the name `n`. -/
def nmCount (ps : List Elem) (n : Line) : Nat :=
  ps.countP (fun e => nameOf e == some n)

/-- Shape constraints every element of a profile document satisfies:
comments begin with their comment character, parameter names begin with a
lower-case alphanumeric character (as the reader's regex guarantees),
inline tags begin with `<`. -/
def WFElem : Elem → Bool
  | .blank => true
  | .comment t => t.head? == some '#' || t.head? == some ';'
  | .inline tag _ => tag.head? == some '<'
  | .param nm _ => headAl nm

/-- A well-formed profile document: well-formed elements, at most one
`Parameter`/`Inline` element per name. -/
def WFDoc (doc : List Elem) : Prop :=
  (∀ e ∈ doc, WFElem e = true) ∧ ∀ n, keyCount doc n ≤ 1

theorem countP_two_le {α : Type} (p : α → Bool) (l : List α) (a b : α)
    (ha : a ∈ l) (hb : b ∈ l) (hab : a ≠ b) (hpa : p a = true)
    (hpb : p b = true) : 2 ≤ l.countP p := by
  obtain ⟨u, v, huv⟩ := List.append_of_mem ha
  subst huv
  rw [List.countP_append, List.countP_cons, hpa, if_pos rfl]
  rcases List.mem_append.mp hb with hu | hav
  · have : 0 < u.countP p := List.countP_pos_iff.mpr ⟨b, hu, hpb⟩
    omega
  · rcases List.mem_cons.mp hav with hba | hv
    · exact absurd hba.symm hab
    · have : 0 < v.countP p := List.countP_pos_iff.mpr ⟨b, hv, hpb⟩
      omega

theorem find?_eq_some_of_unique {α : Type} (p : α → Bool) (l : List α) (a : α)
    (ha : a ∈ l) (hpa : p a = true) (huniq : ∀ b ∈ l, p b = true → b = a) :
    l.find? p = some a := by
  induction l with
  | nil => simp at ha
  | cons x xs ih =>
    by_cases hx : p x = true
    · rw [List.find?_cons_of_pos _ hx]
      rw [huniq x (by simp) hx]
    · rw [List.find?_cons_of_neg _ hx]
      rcases List.mem_cons.mp ha with hax | haxs
      · rw [hax] at hpa
        exact absurd hpa hx
      · exact ih haxs (fun b hb hpb => huniq b (by simp [hb]) hpb)

theorem mem_pyInsert (x : Elem) (ps : List Elem) (i : Nat) (e : Elem) :
    x ∈ pyInsert ps i e ↔ x = e ∨ x ∈ ps := by
  rw [pyInsert_eq_take_drop]
  constructor
  · intro hx
    rcases List.mem_append.mp hx with h1 | h2
    · exact Or.inr (List.take_subset i ps h1)
    · rcases List.mem_cons.mp h2 with h3 | h4
      · exact Or.inl h3
      · exact Or.inr (List.drop_subset i ps h4)
  · intro hx
    rcases hx with h1 | h2
    · exact List.mem_append.mpr (Or.inr (by simp [h1]))
    · conv at h2 => rw [← List.take_append_drop i ps]
      rcases List.mem_append.mp h2 with h3 | h4
      · exact List.mem_append.mpr (Or.inl h3)
      · exact List.mem_append.mpr (Or.inr (by simp [h4]))

theorem containsName_pyInsert_false (ps : List Elem) (i : Nat) (e : Elem)
    (m : Line) (h1 : ¬ nameOf e = some m) (h2 : containsName ps m = false) :
    containsName (pyInsert ps i e) m = false := by
  simp only [containsName, List.any_eq_false, decide_eq_true_eq] at h2 ⊢
  intro x hx
  rcases (mem_pyInsert x ps i e).mp hx with hxe | hxps
  · rw [hxe]
    exact h1
  · exact h2 x hxps

theorem containsName_false_of_nmCount_zero (ps : List Elem) (n : Line)
    (h : nmCount ps n = 0) : containsName ps n = false := by
  rw [nmCount, List.countP_eq_zero] at h
  simp only [containsName, List.any_eq_false, decide_eq_true_eq]
  intro x hx
  have := h x hx
  simpa using this

theorem nmCount_eq_keyCount_of_wf (ps : List Elem) (n : Line)
    (hwf : ∀ e ∈ ps, WFElem e = true) (hn : headAl n = true) :
    nmCount ps n = keyCount ps n := by
  induction ps with
  | nil => rfl
  | cons x xs ih =>
    rw [nmCount, keyCount, List.countP_cons, List.countP_cons]
    rw [← nmCount, ← keyCount, ih (fun e he => hwf e (by simp [he]))]
    congr 1
    cases x with
    | blank => rfl
    | param nm v => rfl
    | inline tag body => rfl
    | comment t =>
      have hwx := hwf (.comment t) (by simp)
      simp only [WFElem, Bool.or_eq_true, beq_iff_eq] at hwx
      simp only [nameOf, keyName, beq_iff_eq]
      have : t ≠ n := by
        intro hteq
        subst hteq
        cases t with
        | nil => simp at hwx
        | cons c cs =>
          simp only [List.head?_cons, Option.some.injEq] at hwx
          simp only [headAl] at hn
          rcases hwx with h | h <;> subst h <;> exact absurd hn (by decide)
      simp [this]

theorem delScan_subset (k : Line) (ps ps' : List Elem)
    (h : delScan k ps = some ps') : ∀ e ∈ ps', e ∈ ps :=
  fun _ he => (delScan_sublist k ps ps' h).subset he

theorem delScan_mem_of_ne (k : Line) (ps ps' : List Elem) (e : Elem)
    (h : delScan k ps = some ps') (he : e ∈ ps) (hne : nameOf e ≠ some k) :
    e ∈ ps' := by
  induction ps generalizing ps' with
  | nil => simp at he
  | cons x xs ih =>
    unfold delScan at h
    by_cases hx : nameOf x = some k
    · rw [if_pos hx] at h
      simp only [Option.some.injEq] at h
      subst h
      rcases List.mem_cons.mp he with hex | hexs
      · rw [hex] at hne
        exact absurd hx hne
      · exact hexs
    · rw [if_neg hx] at h
      cases hrec : delScan k xs with
      | none => rw [hrec] at h; exact absurd h (by simp)
      | some ys =>
        rw [hrec] at h
        simp only [Option.map_some', Option.some.injEq] at h
        subst h
        rcases List.mem_cons.mp he with hex | hexs
        · simp [hex]
        · simp [ih ys hrec hexs]

theorem delScan_nmCount_self (k : Line) (ps ps' : List Elem)
    (h : delScan k ps = some ps') :
    nmCount ps' k + 1 = nmCount ps k := by
  induction ps generalizing ps' with
  | nil => simp [delScan] at h
  | cons x xs ih =>
    unfold delScan at h
    by_cases hx : nameOf x = some k
    · rw [if_pos hx] at h
      simp only [Option.some.injEq] at h
      subst h
      simp [nmCount, List.countP_cons, hx]
    · rw [if_neg hx] at h
      cases hrec : delScan k xs with
      | none => rw [hrec] at h; exact absurd h (by simp)
      | some ys =>
        rw [hrec] at h
        simp only [Option.map_some', Option.some.injEq] at h
        subst h
        have hys := ih ys hrec
        simp only [nmCount, List.countP_cons] at hys ⊢
        simp only [show (nameOf x == some k) = false by simpa using hx]
        omega

theorem delScan_none_iff (k : Line) (ps : List Elem) :
    delScan k ps = none ↔ ∀ e ∈ ps, nameOf e ≠ some k := by
  induction ps with
  | nil => simp [delScan]
  | cons x xs ih =>
    unfold delScan
    by_cases hx : nameOf x = some k
    · rw [if_pos hx]
      simp [hx]
    · rw [if_neg hx]
      rw [Option.map_eq_none', ih]
      simp [hx]

/-- Everything a best-effort deletion guarantees: it succeeds on a
nonempty key, only removes elements, keeps every element with a different
name, empties the key's name when it occurred at most once, and never
increases any name count. -/
theorem delOne_spec (ps : List Elem) (n : Line) (hn : n ≠ []) :
    ∃ ps', delOne ps n = some ps' ∧
      (∀ e ∈ ps', e ∈ ps) ∧
      (∀ e ∈ ps, nameOf e ≠ some n → e ∈ ps') ∧
      (nmCount ps n ≤ 1 → nmCount ps' n = 0) ∧
      (∀ m, nmCount ps' m ≤ nmCount ps m) := by
  unfold delOne delByName
  rw [if_neg hn]
  cases hscan : delScan n ps with
  | none =>
    refine ⟨ps, rfl, fun e he => he, fun e he _ => he, ?_, fun m => le_refl _⟩
    intro _
    rw [nmCount, List.countP_eq_zero]
    intro e he
    simpa using (delScan_none_iff n ps).mp hscan e he
  | some ps' =>
    refine ⟨ps', rfl, delScan_subset n ps ps' hscan,
      fun e he hne => delScan_mem_of_ne n ps ps' e hscan he hne, ?_, ?_⟩
    · intro hle
      have := delScan_nmCount_self n ps ps' hscan
      omega
    · intro m
      exact (delScan_sublist n ps ps' hscan).countP_le _

/-- A successful insertion for the three cases the transform uses: a
blank line, a comment, or an element whose name is not yet present. -/
theorem insertElem_succeeds (ps : List Elem) (i : Nat) (e : Elem)
    (h : nameOf e = none ∨ isCommentE e = true ∨
      containsName ps ((nameOf e).getD []) = false) :
    insertElem ps i e = some (pyInsert ps i e) := by
  unfold insertElem
  rcases h with h1 | h2 | h3
  · rw [if_neg]
    simp [nameTruthy, h1]
  · rw [if_neg]
    simp [h2]
  · rw [if_neg]
    simp [h3]

/-- The combined effect of the best-effort deletion loop over a list of
settings whose names are nonempty and occur at most once in the
document. -/
theorem delSettings_spec (settings : List Elem) (ps : List Elem)
    (hn : ∀ s ∈ settings, ∃ n, nameOf s = some n ∧ n ≠ [])
    (hcnt : ∀ s ∈ settings, ∀ n, nameOf s = some n → nmCount ps n ≤ 1) :
    ∃ ps', delSettings ps settings = some ps' ∧
      (∀ e ∈ ps', e ∈ ps) ∧
      (∀ e ∈ ps, (∀ s ∈ settings, nameOf e ≠ nameOf s) → e ∈ ps') ∧
      (∀ s ∈ settings, ∀ n, nameOf s = some n → nmCount ps' n = 0) ∧
      (∀ m, nmCount ps' m ≤ nmCount ps m) := by
  induction settings generalizing ps with
  | nil => exact ⟨ps, rfl, fun e he => he, fun e he _ => he, by simp, fun m => le_refl _⟩
  | cons s rest ih =>
    obtain ⟨n, hsn, hne⟩ := hn s (by simp)
    obtain ⟨ps1, hdel, hsub, hkeep, hzero, hle⟩ := delOne_spec ps n hne
    obtain ⟨ps', hrest, hsub', hkeep', hzero', hle'⟩ := ih ps1
      (fun t ht => hn t (by simp [ht]))
      (fun t ht m htm => le_trans (hle m) (hcnt t (by simp [ht]) m htm))
    refine ⟨ps', ?_, ?_, ?_, ?_, ?_⟩
    · unfold delSettings
      rw [hsn]
      simp only [Option.getD_some, hdel]
      exact hrest
    · exact fun e he => hsub e (hsub' e he)
    · intro e he hdiff
      apply hkeep'
      · apply hkeep e he
        rw [← hsn]
        exact hdiff s (by simp)
      · intro t ht
        exact hdiff t (by simp [ht])
    · intro t ht m htm
      rcases List.mem_cons.mp ht with rfl | htr
      · rw [hsn] at htm
        simp only [Option.some.injEq] at htm
        subst htm
        have h0 : nmCount ps1 n = 0 := hzero (hcnt t (by simp) n hsn)
        have := hle' n
        omega
      · exact hzero' t htr m htm
    · exact fun m => le_trans (hle' m) (hle m)

/-- The combined effect of the insertion loop when every to-be-inserted
keyed element has a fresh name: no element whose name is already in the
document and no two keyed elements of the batch sharing a name (earlier
batch elements, comments included, must not carry a later keyed
element's name). -/
theorem insertAll_spec (toIns : List Elem) (ps : List Elem) (i : Nat)
    (hbase : ∀ s ∈ toIns, isCommentE s = false → ∀ n, nameOf s = some n →
      containsName ps n = false)
    (hpair : List.Pairwise
      (fun x y => isCommentE y = false → nameOf y = none ∨ nameOf x ≠ nameOf y)
      toIns) :
    ∃ ps', insertAll ps i toIns = some ps' ∧
      (∀ e ∈ ps, e ∈ ps') ∧ (∀ s ∈ toIns, s ∈ ps') := by
  induction toIns generalizing ps i with
  | nil => exact ⟨ps, rfl, fun e he => he, by simp⟩
  | cons s rest ih =>
    obtain ⟨hhead, htail⟩ := List.pairwise_cons.mp hpair
    have hs : insertElem ps i s = some (pyInsert ps i s) := by
      apply insertElem_succeeds
      by_cases hcm : isCommentE s = true
      · exact Or.inr (Or.inl hcm)
      · cases hnm : nameOf s with
        | none => exact Or.inl rfl
        | some n =>
          refine Or.inr (Or.inr ?_)
          simp only [hnm, Option.getD_some]
          exact hbase s (by simp) (by simpa using hcm) n hnm
    obtain ⟨ps', hrest, hsub, hmem⟩ := ih (pyInsert ps i s) (i + 1)
      (by
        intro t ht hcm n htn
        apply containsName_pyInsert_false
        · rcases hhead t ht hcm with hnone | hne
          · rw [hnone] at htn
            exact absurd htn (by simp)
          · rw [htn] at hne
            exact hne
        · exact hbase t (by simp [ht]) hcm n htn)
      htail
    refine ⟨ps', ?_, ?_, ?_⟩
    · unfold insertAll
      simp only [hs]
      exact hrest
    · intro e he
      exact hsub e ((mem_pyInsert e ps i s).mpr (Or.inr he))
    · intro t ht
      rcases List.mem_cons.mp ht with rfl | htr
      · exact hsub t ((mem_pyInsert t ps i t).mpr (Or.inl rfl))
      · exact hmem t htr

theorem nmCount_le_one_of_wf (doc : List Elem)
    (hwfe : ∀ e ∈ doc, WFElem e = true) (hkey : ∀ n, keyCount doc n ≤ 1)
    (n : Line) (hn : headAl n = true) : nmCount doc n ≤ 1 := by
  rw [nmCount_eq_keyCount_of_wf doc n hwfe hn]
  exact hkey n

/-- C2: on any well-formed profile document containing the parameter
`cipher AES-256-CBC`, `process_profile` with minimum TLS 1.3 and no
provider extension succeeds, and the output contains
`tls-version-min 1.3 or-highest`, a `tls-cipher` parameter equal to the
STRONG literal, and the untouched `cipher AES-256-CBC` parameter. -/
theorem c2_end_to_end (doc : List Elem) (hwf : WFDoc doc)
    (hc : Elem.param ("cipher".toList) (some ("AES-256-CBC".toList)) ∈ doc) :
    ∃ doc', processProfile doc TLSVersion.v1_3 ProviderExt.noExt = some doc' ∧
      Elem.param ("tls-version-min".toList) (some ("1.3 or-highest".toList)) ∈ doc' ∧
      Elem.param ("tls-cipher".toList)
        (some ("TLS-ECDHE-ECDSA-WITH-AES-256-GCM-SHA384:TLS-ECDHE-ECDSA-WITH-CHACHA20-POLY1305-SHA256:TLS-ECDHE-ECDSA-WITH-AES-256-CBC-SHA384".toList)) ∈ doc' ∧
      Elem.param ("cipher".toList) (some ("AES-256-CBC".toList)) ∈ doc' := by
  obtain ⟨hwfe, hkey⟩ := hwf
  have huniq : ∀ b ∈ doc,
      (fun e => decide (nameOf e = some ("cipher".toList))) b = true →
      b = Elem.param ("cipher".toList) (some ("AES-256-CBC".toList)) := by
    intro b hb hpb
    simp only [decide_eq_true_eq] at hpb
    cases b with
    | blank => simp [nameOf] at hpb
    | comment t =>
      simp only [nameOf, Option.some.injEq] at hpb
      subst hpb
      have hw := hwfe _ hb
      simp only [WFElem] at hw
      exact absurd hw (by decide)
    | inline tag body =>
      simp only [nameOf, Option.some.injEq] at hpb
      subst hpb
      have hw := hwfe _ hb
      simp only [WFElem] at hw
      exact absurd hw (by decide)
    | param nm v =>
      simp only [nameOf, Option.some.injEq] at hpb
      subst hpb
      by_contra hne
      have h2 := countP_two_le (fun e => keyName e == some ("cipher".toList)) doc
        (Elem.param ("cipher".toList) v)
        (Elem.param ("cipher".toList) (some ("AES-256-CBC".toList)))
        hb hc hne (by simp [keyName]) (by simp [keyName])
      have h1 := hkey ("cipher".toList)
      rw [keyCount] at h1
      omega
  have hget : getByName doc ("cipher".toList)
      = Res.ok (Elem.param ("cipher".toList) (some ("AES-256-CBC".toList))) := by
    unfold getByName
    rw [if_neg (by decide),
      find?_eq_some_of_unique _ doc _ hc (by decide) huniq]
  have hstr : cipherStrengthOp doc = Res.ok Strength.strong := by
    unfold cipherStrengthOp
    simp only [hget]
    rw [show strengthOfElem
      (Elem.param ("cipher".toList) (some ("AES-256-CBC".toList)))
      = Strength.strong from by decide]
  have hn : ∀ s ∈ strongSettings ("1.3".toList), ∃ n, nameOf s = some n ∧ n ≠ [] := by
    intro s hs
    simp only [strongSettings, List.mem_cons, List.not_mem_nil, or_false] at hs
    rcases hs with rfl | rfl | rfl | rfl
    · exact ⟨"tls-version-min".toList, by decide, by decide⟩
    · exact ⟨"tls-cipher".toList, by decide, by decide⟩
    · exact ⟨"tls-groups".toList, by decide, by decide⟩
    · exact ⟨"tls-ciphersuites".toList, by decide, by decide⟩
  have hcnt : ∀ s ∈ strongSettings ("1.3".toList), ∀ n, nameOf s = some n →
      nmCount doc n ≤ 1 := by
    intro s hs n hsn
    simp only [strongSettings, List.mem_cons, List.not_mem_nil, or_false] at hs
    rcases hs with rfl | rfl | rfl | rfl
    · rw [show nameOf (mkParam ("tls-version-min".toList)
        (some ("1.3".toList ++ " or-highest".toList)))
        = some ("tls-version-min".toList) from by decide] at hsn
      simp only [Option.some.injEq] at hsn
      subst hsn
      exact nmCount_le_one_of_wf doc hwfe hkey _ (by decide)
    · rw [show nameOf (mkParam ("tls-cipher".toList)
        (some ("TLS-ECDHE-ECDSA-WITH-AES-256-GCM-SHA384:TLS-ECDHE-ECDSA-WITH-CHACHA20-POLY1305-SHA256:TLS-ECDHE-ECDSA-WITH-AES-256-CBC-SHA384".toList)))
        = some ("tls-cipher".toList) from by decide] at hsn
      simp only [Option.some.injEq] at hsn
      subst hsn
      exact nmCount_le_one_of_wf doc hwfe hkey _ (by decide)
    · rw [show nameOf (mkParam ("tls-groups".toList)
        (some ("secp521r1:X448:secp384r1:secp256r1:X25519".toList)))
        = some ("tls-groups".toList) from by decide] at hsn
      simp only [Option.some.injEq] at hsn
      subst hsn
      exact nmCount_le_one_of_wf doc hwfe hkey _ (by decide)
    · rw [show nameOf (mkParam ("tls-ciphersuites".toList)
        (some ("TLS_AES_256_GCM_SHA384:TLS_CHACHA20_POLY1305_SHA256".toList)))
        = some ("tls-ciphersuites".toList) from by decide] at hsn
      simp only [Option.some.injEq] at hsn
      subst hsn
      exact nmCount_le_one_of_wf doc hwfe hkey _ (by decide)
  obtain ⟨d1, hdelS, hd1sub, hd1keep, hd1zero, hd1le⟩ :=
    delSettings_spec (strongSettings ("1.3".toList)) doc hn hcnt
  have hcP1 : Elem.param ("cipher".toList) (some ("AES-256-CBC".toList)) ∈ d1 := by
    apply hd1keep _ hc
    intro s hs
    simp only [strongSettings, List.mem_cons, List.not_mem_nil, or_false] at hs
    rcases hs with rfl | rfl | rfl | rfl <;> decide
  have hbase : ∀ s ∈ Elem.blank :: beginComment ::
      (strongSettings ("1.3".toList) ++ [endComment, Elem.blank]),
      isCommentE s = false → ∀ n, nameOf s = some n →
      containsName d1 n = false := by
    intro s hs hcm n hsn
    simp only [strongSettings, beginComment, endComment, mkComment,
      List.mem_cons, List.mem_append, List.not_mem_nil, or_false,
      List.mem_singleton] at hs
    rcases hs with rfl | rfl | (rfl | rfl | rfl | rfl) | rfl | rfl
    · simp [nameOf] at hsn
    · exact absurd hcm (by decide)
    · rw [show nameOf (mkParam ("tls-version-min".toList) (some ("1.3".toList ++ " or-highest".toList)))
        = some ("tls-version-min".toList) from by decide] at hsn
      simp only [Option.some.injEq] at hsn
      subst hsn
      exact containsName_false_of_nmCount_zero d1 _
        (hd1zero (mkParam ("tls-version-min".toList) (some ("1.3".toList ++ " or-highest".toList)))
          (by decide) ("tls-version-min".toList) (by decide))
    · rw [show nameOf (mkParam ("tls-cipher".toList) (some ("TLS-ECDHE-ECDSA-WITH-AES-256-GCM-SHA384:TLS-ECDHE-ECDSA-WITH-CHACHA20-POLY1305-SHA256:TLS-ECDHE-ECDSA-WITH-AES-256-CBC-SHA384".toList)))
        = some ("tls-cipher".toList) from by decide] at hsn
      simp only [Option.some.injEq] at hsn
      subst hsn
      exact containsName_false_of_nmCount_zero d1 _
        (hd1zero (mkParam ("tls-cipher".toList) (some ("TLS-ECDHE-ECDSA-WITH-AES-256-GCM-SHA384:TLS-ECDHE-ECDSA-WITH-CHACHA20-POLY1305-SHA256:TLS-ECDHE-ECDSA-WITH-AES-256-CBC-SHA384".toList)))
          (by decide) ("tls-cipher".toList) (by decide))
    · rw [show nameOf (mkParam ("tls-groups".toList) (some ("secp521r1:X448:secp384r1:secp256r1:X25519".toList)))
        = some ("tls-groups".toList) from by decide] at hsn
      simp only [Option.some.injEq] at hsn
      subst hsn
      exact containsName_false_of_nmCount_zero d1 _
        (hd1zero (mkParam ("tls-groups".toList) (some ("secp521r1:X448:secp384r1:secp256r1:X25519".toList)))
          (by decide) ("tls-groups".toList) (by decide))
    · rw [show nameOf (mkParam ("tls-ciphersuites".toList) (some ("TLS_AES_256_GCM_SHA384:TLS_CHACHA20_POLY1305_SHA256".toList)))
        = some ("tls-ciphersuites".toList) from by decide] at hsn
      simp only [Option.some.injEq] at hsn
      subst hsn
      exact containsName_false_of_nmCount_zero d1 _
        (hd1zero (mkParam ("tls-ciphersuites".toList) (some ("TLS_AES_256_GCM_SHA384:TLS_CHACHA20_POLY1305_SHA256".toList)))
          (by decide) ("tls-ciphersuites".toList) (by decide))
    · exact absurd hcm (by decide)
    · simp [nameOf] at hsn
  obtain ⟨df, hins, hinsSub, hinsMem⟩ := insertAll_spec
    (Elem.blank :: beginComment ::
      (strongSettings ("1.3".toList) ++ [endComment, Elem.blank]))
    d1 (lastBeforeInline d1) hbase (by decide)
  refine ⟨df, ?_, ?_, ?_, ?_⟩
  · unfold processProfile
    simp only [hstr, true_or, if_true, TLSVersion.ver, hdelS, hins]
  · have hm := hinsMem (mkParam ("tls-version-min".toList)
      (some ("1.3".toList ++ " or-highest".toList))) (by decide)
    rw [show Elem.param ("tls-version-min".toList)
      (some ("1.3 or-highest".toList))
      = mkParam ("tls-version-min".toList)
        (some ("1.3".toList ++ " or-highest".toList)) from by decide]
    exact hm
  · have hm := hinsMem (mkParam ("tls-cipher".toList)
      (some ("TLS-ECDHE-ECDSA-WITH-AES-256-GCM-SHA384:TLS-ECDHE-ECDSA-WITH-CHACHA20-POLY1305-SHA256:TLS-ECDHE-ECDSA-WITH-AES-256-CBC-SHA384".toList)))
      (by decide)
    rw [show Elem.param ("tls-cipher".toList)
      (some ("TLS-ECDHE-ECDSA-WITH-AES-256-GCM-SHA384:TLS-ECDHE-ECDSA-WITH-CHACHA20-POLY1305-SHA256:TLS-ECDHE-ECDSA-WITH-AES-256-CBC-SHA384".toList))
      = mkParam ("tls-cipher".toList)
        (some ("TLS-ECDHE-ECDSA-WITH-AES-256-GCM-SHA384:TLS-ECDHE-ECDSA-WITH-CHACHA20-POLY1305-SHA256:TLS-ECDHE-ECDSA-WITH-AES-256-CBC-SHA384".toList)) from by decide]
    exact hm
  · exact hinsSub _ hcP1

/-- C2 witness: the end-to-end theorem evaluated on the one-line profile
`cipher AES-256-CBC`. -/
theorem c2_witness :
    ∃ doc', processProfile
        [Elem.param ("cipher".toList) (some ("AES-256-CBC".toList))]
        TLSVersion.v1_3 ProviderExt.noExt = some doc' ∧
      Elem.param ("tls-version-min".toList) (some ("1.3 or-highest".toList)) ∈ doc' ∧
      Elem.param ("tls-cipher".toList)
        (some ("TLS-ECDHE-ECDSA-WITH-AES-256-GCM-SHA384:TLS-ECDHE-ECDSA-WITH-CHACHA20-POLY1305-SHA256:TLS-ECDHE-ECDSA-WITH-AES-256-CBC-SHA384".toList)) ∈ doc' ∧
      Elem.param ("cipher".toList) (some ("AES-256-CBC".toList)) ∈ doc' :=
  c2_end_to_end [Elem.param ("cipher".toList) (some ("AES-256-CBC".toList))]
    ⟨by decide, by
      intro n
      rw [keyCount, List.countP_cons, List.countP_nil]
      split <;> omega⟩ (by decide)

/-! ### C1 -/

/-- A line free of embedded newlines (anything else would not survive a
write/read cycle through a real file). -/
def noNL (l : Line) : Bool := !l.contains '\n'

/-- A line in canonical form: no surrounding whitespace, no embedded
newline. -/
def canonText (l : Line) : Bool := (pyStrip l == l) && noNL l

/-- The checks the tag regex performs on a naked tag name, as one Boolean
predicate. -/
def tagGood (b : Line) : Bool :=
  (decide (2 ≤ b.length)) && b.all isTagChar && headAl b && headAl b.reverse

/-- An element whose rendering re-parses to exactly itself: comments and
values trimmed and newline-free, parameter names matching the reader's
pattern with no space, inline tags bracketed well-formed names with body
lines trimmed and none of them starting like the closer. -/
def CanonElem : Elem → Bool
  | .blank => true
  | .comment t =>
      (!t.isEmpty) && canonText t && (t.head? == some '#' || t.head? == some ';')
  | .param nm v =>
      paramGate nm && canonText nm && (!nm.contains ' ') &&
      (match v with
       | none => true
       | some t => (!t.isEmpty) && canonText t)
  | .inline tag body =>
      (tag == '<' :: (((tag.drop 1).dropLast) ++ ['>'])) &&
      tagGood ((tag.drop 1).dropLast) &&
      body.all (fun l =>
        canonText l &&
        !leadMatch ('<' :: '/' :: (((tag.drop 1).dropLast) ++ ['>'])) l)

theorem leadMatch_refl (l : Line) : leadMatch l l = true := by
  induction l with
  | nil => rfl
  | cons c cs ih => simp [leadMatch, ih]

theorem map_pyStrip_id (ls : List Line) (h : ∀ l ∈ ls, pyStrip l = l) :
    ls.map pyStrip = ls := by
  induction ls with
  | nil => rfl
  | cons l ls ih =>
    rw [List.map_cons, h l (by simp), ih (fun x hx => h x (by simp [hx]))]

theorem writeElem_length (e : Elem) : (writeElem e).length = elemLen e := by
  cases e with
  | blank => rfl
  | comment t => rfl
  | param nm v =>
    cases v with
    | none => rfl
    | some t =>
      unfold writeElem
      by_cases ht : t.isEmpty = true <;> simp [ht, elemLen]
  | inline tag body => simp [writeElem, elemLen]; omega

theorem tagScan_none_of_head (c : Char) (cs : Line) (hc : c ≠ '<') :
    tagScan (c :: cs) = none := by
  unfold tagScan
  split
  · next h => exact absurd (List.cons.inj h.symm).1.symm hc
  · rfl

theorem takeWhile_append_stop {p : Char → Bool} (xs ys : Line)
    (hy : ∀ c, ys.head? = some c → p c = false) :
    (xs ++ ys).takeWhile p = xs.takeWhile p := by
  induction xs with
  | nil =>
    cases ys with
    | nil => rfl
    | cons y ys' => simp [List.takeWhile_cons, hy y rfl]
  | cons x xs ih =>
    by_cases hx : p x = true <;> simp [List.takeWhile_cons, hx, ih]

theorem pyStrip_self_ends (l : Line) (h : pyStrip l = l) :
    (∀ c, l.head? = some c → isPySpace c = false) ∧
    (∀ c, l.getLast? = some c → isPySpace c = false) := by
  have hlen1 : (l.dropWhile isPySpace).length = l.length := by
    by_contra hne
    have h1 : (l.dropWhile isPySpace).length ≤ l.length :=
      (List.dropWhile_suffix isPySpace).sublist.length_le
    have h2 : (pyStrip l).length ≤ (l.dropWhile isPySpace).length := by
      unfold pyStrip
      rw [List.length_reverse]
      calc ((l.dropWhile isPySpace).reverse.dropWhile isPySpace).length
          ≤ (l.dropWhile isPySpace).reverse.length :=
            (List.dropWhile_suffix isPySpace).sublist.length_le
        _ = (l.dropWhile isPySpace).length := List.length_reverse _
    rw [h] at h2
    omega
  have hdrop1 : l.dropWhile isPySpace = l :=
    (List.dropWhile_suffix isPySpace).eq_of_length hlen1
  have hlen2 : (l.reverse.dropWhile isPySpace).length = l.length := by
    by_contra hne
    have h1 : (l.reverse.dropWhile isPySpace).length ≤ l.length := by
      calc (l.reverse.dropWhile isPySpace).length
          ≤ l.reverse.length := (List.dropWhile_suffix isPySpace).sublist.length_le
        _ = l.length := List.length_reverse _
    have h2 : (pyStrip l).length = (l.reverse.dropWhile isPySpace).length := by
      unfold pyStrip
      rw [hdrop1, List.length_reverse]
    rw [h] at h2
    omega
  have hdrop2 : l.reverse.dropWhile isPySpace = l.reverse := by
    apply (List.dropWhile_suffix isPySpace).eq_of_length
    rw [hlen2, List.length_reverse]
  constructor
  · intro c hc
    apply head?_dropWhile_not isPySpace l
    rw [hdrop1]
    exact hc
  · intro c hc
    apply head?_dropWhile_not isPySpace l.reverse
    rw [hdrop2, List.head?_reverse]
    exact hc

theorem addElem_false_append (acc : List Elem) (e : Elem)
    (h : isExempt e = true ∨ ∀ x ∈ acc, nameOf x ≠ nameOf e) :
    addElem acc e false = some (acc ++ [e]) := by
  unfold addElem
  rcases h with hex | hdisj
  · rw [if_pos hex]
  · by_cases hex : isExempt e = true
    · rw [if_pos hex]
    · rw [if_neg hex]
      induction acc with
      | nil => rfl
      | cons x xs ih =>
        unfold replaceOrAppend
        rw [if_neg (hdisj x (by simp))]
        rw [ih (fun y hy => hdisj y (by simp [hy]))]
        rfl

theorem goodName_of_checks (b : Line) (hg : tagGood b = true) : GoodName b := by
  simp only [tagGood, Bool.and_eq_true, decide_eq_true_eq] at hg
  obtain ⟨⟨⟨hlen, hall⟩, hhd⟩, hlast⟩ := hg
  have hbne : b ≠ [] := by
    intro hnil
    rw [hnil] at hlen
    simp at hlen
  obtain ⟨c, cs, hcs⟩ := List.exists_cons_of_ne_nil hbne
  have hcsne : cs ≠ [] := by
    intro hnil
    rw [hcs, hnil] at hlen
    simp at hlen
  obtain ⟨d, hd⟩ : ∃ d, cs.getLast? = some d := by
    cases hg : cs.getLast? with
    | none => exact absurd (List.getLast?_eq_none_iff.mp hg) hcsne
    | some d => exact ⟨d, rfl⟩
  refine ⟨c, cs.dropLast, d, ?_, ?_, ?_, ?_⟩
  · rw [hcs, List.dropLast_append_getLast? d hd]
  · rw [hcs] at hhd
    simpa [headAl] using hhd
  · rw [← List.head?_reverse] at hd
    have hbrev : b.reverse.head? = some d := by
      rw [hcs]
      simp only [List.reverse_cons]
      simp [List.head?_append, hd]
    cases hr : b.reverse with
    | nil => rw [hr] at hbrev; simp at hbrev
    | cons y ys =>
      rw [hr] at hbrev
      simp only [List.head?_cons, Option.some.injEq] at hbrev
      rw [hr] at hlast
      simpa [headAl, hbrev] using hlast
  · intro x hx
    rw [List.all_eq_true] at hall
    exact hall x hx

/-- The first reader fails on any line that strips to itself nonempty. -/
theorem blankRead_none (l : Line) (t : List Line) (hs : pyStrip l = l)
    (hne : l ≠ []) : blankRead (l :: t) = none := by
  simp only [blankRead]
  rw [hs, if_neg hne]

/-- The comment reader fails on any line that does not start with `#` or
`;`. -/
theorem commentRead_none (c : Char) (cs : Line) (t : List Line)
    (h1 : c ≠ '#') (h2 : c ≠ ';') : commentRead ((c :: cs) :: t) = none := by
  simp only [commentRead]
  rw [if_neg]
  simp [h1, h2]

/-- Reading back the canonical rendering of an element, with arbitrary
following lines, recovers the element. -/
theorem tryRead_writeElem (e : Elem) (he : CanonElem e = true) (t : List Line) :
    tryRead (writeElem e ++ t) = some e := by
  cases e with
  | blank =>
    show tryRead ([] :: t) = some Elem.blank
    rfl
  | comment txt =>
    simp only [CanonElem, Bool.and_eq_true] at he
    obtain ⟨⟨hne, hcanon⟩, hhead⟩ := he
    simp only [canonText, Bool.and_eq_true, beq_iff_eq] at hcanon
    obtain ⟨hstrip, -⟩ := hcanon
    have htne : txt ≠ [] := by
      intro hnil
      rw [hnil] at hne
      simp at hne
    show tryRead (txt :: t) = some (Elem.comment txt)
    have hblank := blankRead_none txt t hstrip htne
    have hcmt : commentRead (txt :: t) = some (mkComment txt) := by
      simp only [commentRead]
      rw [if_pos]
      simpa using hhead
    rw [mkComment, hstrip] at hcmt
    unfold tryRead
    simp [hblank, hcmt]
  | param nm v =>
    simp only [CanonElem, Bool.and_eq_true] at he
    obtain ⟨⟨⟨hgate, hcanon⟩, hnosp⟩, hv⟩ := he
    simp only [canonText, Bool.and_eq_true, beq_iff_eq] at hcanon
    obtain ⟨hstrip, -⟩ := hcanon
    have hns : ' ' ∉ nm := by simpa using hnosp
    obtain ⟨c, rest, hcr⟩ : ∃ c rest, nm = c :: rest := by
      cases nm with
      | nil => simp [paramGate] at hgate
      | cons c rest => exact ⟨c, rest, rfl⟩
    have hAl : isAl c = true := by
      rw [hcr] at hgate
      simp only [paramGate, Bool.and_eq_true] at hgate
      exact hgate.1
    have hc_hash : c ≠ '#' := by
      intro hh
      rw [hh] at hAl
      exact absurd hAl (by decide)
    have hc_semi : c ≠ ';' := by
      intro hh
      rw [hh] at hAl
      exact absurd hAl (by decide)
    have hc_lt : c ≠ '<' := by
      intro hh
      rw [hh] at hAl
      exact absurd hAl (by decide)
    cases v with
    | none =>
      show tryRead (nm :: t) = some (Elem.param nm none)
      have hblank := blankRead_none nm t hstrip (by rw [hcr]; simp)
      have hcmt : commentRead (nm :: t) = none := by
        rw [hcr]
        exact commentRead_none c rest t hc_hash hc_semi
      have hinl : inlineReadE (nm :: t) = IRead.error InlineErr.notTag := by
        simp only [inlineReadE]
        rw [hstrip, hcr, tagScan_none_of_head c rest hc_lt]
      have hpar : paramRead (nm :: t) = some (Elem.param nm none) := by
        simp only [paramRead]
        simp only [hstrip, hgate, if_true]
        rw [(splitSp_eq_none_iff nm).mpr hns]
        simp only [mkParam]
        rw [hstrip]
      unfold tryRead
      simp [hblank, hcmt, hinl, hpar]
    | some tv =>
      simp only [Bool.and_eq_true] at hv
      obtain ⟨hvne, hvcanon⟩ := hv
      simp only [canonText, Bool.and_eq_true, beq_iff_eq] at hvcanon
      obtain ⟨hvstrip, -⟩ := hvcanon
      have htvne : tv ≠ [] := by
        intro hnil
        rw [hnil] at hvne
        simp at hvne
      have hvempty : tv.isEmpty = false := by
        cases tv with
        | nil => exact absurd rfl htvne
        | cons a as => rfl
      have hw : writeElem (Elem.param nm (some tv)) ++ t = (nm ++ ' ' :: tv) :: t := by
        simp [writeElem, hvempty]
      rw [hw]
      have hlstrip : pyStrip (nm ++ ' ' :: tv) = nm ++ ' ' :: tv := by
        apply pyStrip_id_of_ends
        · intro d hd
          rw [hcr] at hd
          simp only [List.cons_append, List.head?_cons, Option.some.injEq] at hd
          apply (pyStrip_self_ends nm hstrip).1 d
          rw [hcr, List.head?_cons, hd]
        · intro d hd
          rw [List.getLast?_append_of_ne_nil _ (by simp),
            show (' ' :: tv) = [' '] ++ tv from rfl,
            List.getLast?_append_of_ne_nil _ htvne] at hd
          exact (pyStrip_self_ends tv hvstrip).2 d hd
      have hlne : nm ++ ' ' :: tv ≠ [] := by
        rw [hcr]
        simp
      have hblank := blankRead_none _ t hlstrip hlne
      have hcmt : commentRead ((nm ++ ' ' :: tv) :: t) = none := by
        rw [hcr, List.cons_append]
        exact commentRead_none c _ t hc_hash hc_semi
      have hinl : inlineReadE ((nm ++ ' ' :: tv) :: t)
          = IRead.error InlineErr.notTag := by
        simp only [inlineReadE]
        rw [hlstrip, hcr, List.cons_append, tagScan_none_of_head c _ hc_lt]
      have hgate' : paramGate (nm ++ ' ' :: tv) = true := by
        rw [hcr, List.cons_append]
        simp only [paramGate, Bool.and_eq_true, hAl, true_and]
        rw [takeWhile_append_stop rest (' ' :: tv) (by
          intro d hd
          simp only [List.head?_cons, Option.some.injEq] at hd
          subst hd
          decide)]
        rw [hcr] at hgate
        simp only [paramGate, Bool.and_eq_true] at hgate
        exact hgate.2
      have hpar : paramRead ((nm ++ ' ' :: tv) :: t)
          = some (Elem.param nm (some tv)) := by
        simp only [paramRead]
        simp only [hlstrip, hgate', if_true]
        rw [(splitSp_eq_some_iff _ nm tv).mpr ⟨rfl, hns⟩]
        simp only [mkParam]
        rw [hvempty, hstrip, hvstrip]
        rfl
      unfold tryRead
      simp [hblank, hcmt, hinl, hpar]
  | inline tag body =>
    simp only [CanonElem, Bool.and_eq_true, beq_iff_eq] at he
    obtain ⟨⟨htag, hgood⟩, hbody⟩ := he
    set b := (tag.drop 1).dropLast with hb
    have hbodyP : ∀ l ∈ body, pyStrip l = l ∧
        leadMatch ('<' :: '/' :: (b ++ ['>'])) l = false := by
      intro l hl
      rw [List.all_eq_true] at hbody
      have := hbody l hl
      simp only [canonText, Bool.and_eq_true, beq_iff_eq,
        Bool.not_eq_eq_eq_not, Bool.not_true] at this
      exact ⟨this.1.1, this.2⟩
    have hwrite : writeElem (Elem.inline tag body) ++ t
        = ('<' :: (b ++ ['>'])) :: (body ++ ('<' :: '/' :: (b ++ ['>'])) :: t) := by
      simp [writeElem, hb]
    rw [hwrite]
    have hstrip : pyStrip ('<' :: (b ++ ['>'])) = '<' :: (b ++ ['>']) := by
      apply pyStrip_id_of_ends
      · intro d hd
        simp only [List.head?_cons, Option.some.injEq] at hd
        subst hd
        decide
      · intro d hd
        have hg : ('<' :: (b ++ ['>'])).getLast? = some '>' := by
          rw [← List.cons_append]
          exact List.getLast?_concat _
        rw [hg] at hd
        simp only [Option.some.injEq] at hd
        subst hd
        decide
    have hblank := blankRead_none ('<' :: (b ++ ['>']))
      (body ++ ('<' :: '/' :: (b ++ ['>'])) :: t) hstrip (by simp)
    have hcmt : commentRead (('<' :: (b ++ ['>'])) ::
        (body ++ ('<' :: '/' :: (b ++ ['>'])) :: t)) = none :=
      commentRead_none '<' (b ++ ['>'])
        (body ++ ('<' :: '/' :: (b ++ ['>'])) :: t) (by decide) (by decide)
    have hts : tagScan ('<' :: (b ++ ['>'])) = some b := by
      apply (tagScan_eq_some_iff _ _).mpr
      exact ⟨[], by simp, goodName_of_checks b hgood⟩
    have hscan : scanBody ('<' :: '/' :: (b ++ ['>']))
        (body ++ ('<' :: '/' :: (b ++ ['>'])) :: t) = some body :=
      scanBody_eq_some _ _ _ _ (fun x hx => (hbodyP x hx).2)
        (leadMatch_refl _)
    have hinl : inlineReadE (('<' :: (b ++ ['>'])) ::
        (body ++ ('<' :: '/' :: (b ++ ['>'])) :: t))
        = IRead.ok (Elem.inline tag body) := by
      simp only [inlineReadE]
      rw [hstrip]
      simp only [hts, hscan]
      simp only [mkInline]
      rw [map_pyStrip_id body (fun l hl => (hbodyP l hl).1)]
      rw [show pyStrip ('<' :: (b ++ ['>'])) = tag from by rw [hstrip, ← htag]]
    unfold tryRead
    simp [hblank, hcmt, hinl]

theorem keyName_eq_nameOf_of_not_exempt (e : Elem) (hex : isExempt e = false) :
    keyName e = nameOf e := by
  cases e <;> simp_all [isExempt, keyName, nameOf]

theorem canon_key_head (e : Elem) (he : CanonElem e = true) (n : Line)
    (hk : keyName e = some n) :
    ∃ c cs, n = c :: cs ∧ (isAl c = true ∨ c = '<') := by
  cases e with
  | blank => simp [keyName] at hk
  | comment t => simp [keyName] at hk
  | param nm v =>
    simp only [keyName, Option.some.injEq] at hk
    subst hk
    simp only [CanonElem, Bool.and_eq_true] at he
    obtain ⟨⟨⟨hgate, -⟩, -⟩, -⟩ := he
    cases nm with
    | nil => simp [paramGate] at hgate
    | cons c cs =>
      simp only [paramGate, Bool.and_eq_true] at hgate
      exact ⟨c, cs, rfl, Or.inl hgate.1⟩
  | inline tag body =>
    simp only [keyName, Option.some.injEq] at hk
    subst hk
    simp only [CanonElem, Bool.and_eq_true, beq_iff_eq] at he
    obtain ⟨⟨htag, -⟩, -⟩ := he
    exact ⟨'<', _, htag, Or.inr rfl⟩

theorem canon_comment_ne_key (txt : Line)
    (hc : CanonElem (Elem.comment txt) = true) (n : Line)
    (hn : ∃ c cs, n = c :: cs ∧ (isAl c = true ∨ c = '<')) : txt ≠ n := by
  obtain ⟨c, cs, rfl, hct⟩ := hn
  simp only [CanonElem, Bool.and_eq_true, Bool.or_eq_true, beq_iff_eq] at hc
  obtain ⟨-, hhead⟩ := hc
  intro heq
  subst heq
  simp only [List.head?_cons, Option.some.injEq] at hhead
  rcases hhead with rfl | rfl
  · rcases hct with h | h
    · exact absurd h (by decide)
    · exact absurd h (by decide)
  · rcases hct with h | h
    · exact absurd h (by decide)
    · exact absurd h (by decide)

theorem canon_pairwise (doc : List Elem)
    (hcanon : ∀ e ∈ doc, CanonElem e = true)
    (hnodup : (doc.filterMap keyName).Nodup) :
    List.Pairwise (fun x y => isExempt y = false → nameOf x ≠ nameOf y) doc := by
  induction doc with
  | nil => exact List.Pairwise.nil
  | cons x xs ih =>
    have hxsnodup : (xs.filterMap keyName).Nodup := by
      rw [List.filterMap_cons] at hnodup
      cases hkx : keyName x with
      | none => rw [hkx] at hnodup; exact hnodup
      | some m => rw [hkx] at hnodup; exact hnodup.of_cons
    refine List.Pairwise.cons ?_ (ih (fun e he => hcanon e (by simp [he])) hxsnodup)
    intro y hy hyex
    have hky : keyName y = nameOf y := keyName_eq_nameOf_of_not_exempt y hyex
    obtain ⟨n, hyn⟩ : ∃ n, nameOf y = some n := by
      cases y with
      | blank => simp [isExempt] at hyex
      | comment t => simp [isExempt] at hyex
      | inline tag body => exact ⟨tag, rfl⟩
      | param nm v => exact ⟨nm, rfl⟩
    have hnhead := canon_key_head y (hcanon y (by simp [hy])) n (by rw [hky, hyn])
    cases x with
    | blank =>
      rw [hyn]
      simp [nameOf]
    | comment t =>
      rw [hyn]
      simp only [nameOf, Ne, Option.some.injEq]
      exact canon_comment_ne_key t (hcanon _ (by simp)) n hnhead
    | param nm v =>
      rw [List.filterMap_cons] at hnodup
      simp only [keyName] at hnodup
      have hnin : nm ∉ xs.filterMap keyName := (List.nodup_cons.mp hnodup).1
      have hnn : n ∈ xs.filterMap keyName :=
        List.mem_filterMap.mpr ⟨y, hy, by rw [hky, hyn]⟩
      rw [hyn]
      simp only [nameOf, Ne, Option.some.injEq]
      intro heq
      subst heq
      exact hnin hnn
    | inline tag body =>
      rw [List.filterMap_cons] at hnodup
      simp only [keyName] at hnodup
      have hnin : tag ∉ xs.filterMap keyName := (List.nodup_cons.mp hnodup).1
      have hnn : n ∈ xs.filterMap keyName :=
        List.mem_filterMap.mpr ⟨y, hy, by rw [hky, hyn]⟩
      rw [hyn]
      simp only [nameOf, Ne, Option.some.injEq]
      intro heq
      subst heq
      exact hnin hnn

theorem loadFuel_serialize (doc : List Elem) : ∀ (acc : List Elem) (fuel : Nat),
    (∀ e ∈ doc, CanonElem e = true) →
    (∀ e ∈ doc, isExempt e = false → ∀ x ∈ acc, nameOf x ≠ nameOf e) →
    List.Pairwise (fun x y => isExempt y = false → nameOf x ≠ nameOf y) doc →
    (serialize doc).length ≤ fuel →
    loadFuel fuel acc (serialize doc) = some (acc ++ doc) := by
  induction doc with
  | nil =>
    intro acc fuel _ _ _ _
    simp [serialize, loadFuel]
  | cons e doc ih =>
    intro acc fuel hcanon hdisj hpair hfuel
    have hser : serialize (e :: doc) = writeElem e ++ serialize doc := by
      simp [serialize]
    obtain ⟨w0, wrest, hw⟩ : ∃ w0 wrest, writeElem e = w0 :: wrest := by
      cases hwe : writeElem e with
      | nil =>
        have hl := writeElem_length e
        rw [hwe] at hl
        cases e <;> simp only [elemLen, List.length_nil] at hl <;> omega
      | cons a b => exact ⟨a, b, rfl⟩
    cases fuel with
    | zero =>
      exfalso
      rw [hser, hw] at hfuel
      simp at hfuel
    | succ f =>
      rw [hser, hw, List.cons_append]
      simp only [loadFuel]
      have htr : tryRead (w0 :: (wrest ++ serialize doc)) = some e := by
        rw [← List.cons_append, ← hw]
        exact tryRead_writeElem e (hcanon e (by simp)) _
      simp only [htr]
      have hadd : addElem acc e false = some (acc ++ [e]) := by
        apply addElem_false_append
        by_cases hex : isExempt e = true
        · exact Or.inl hex
        · right
          intro x hx
          exact hdisj e (by simp) (by simpa using hex) x hx
      simp only [hadd]
      have hdrop : List.drop (elemLen e - 1) (wrest ++ serialize doc)
          = serialize doc := by
        have hlen : wrest.length = elemLen e - 1 := by
          have hl := writeElem_length e
          rw [hw] at hl
          simp only [List.length_cons] at hl
          omega
        rw [← hlen, List.drop_left]
      rw [hdrop]
      obtain ⟨hphead, hptail⟩ := List.pairwise_cons.mp hpair
      have hrec := ih (acc ++ [e]) f
        (fun x hx => hcanon x (by simp [hx]))
        (by
          intro e' he' hex' x hx
          rcases List.mem_append.mp hx with hxa | hxe
          · exact hdisj e' (by simp [he']) hex' x hxa
          · rw [List.mem_singleton.mp hxe]
            exact hphead e' he' hex')
        hptail
        (by
          rw [hser, hw] at hfuel
          simp only [List.length_append, List.length_cons] at hfuel
          omega)
      rw [hrec, List.append_assoc]
      rfl

/-- C1 counterexample: the text consisting of the single line `" "` is
made of one well-formed element — `BlankLine.read` accepts any
whitespace-only line — yet writing the loaded document back yields an
empty line, so `serialize(load(text)) ≠ text`. -/
theorem c1_counterexample :
    load [[' ']] = some [Elem.blank] ∧ serialize [Elem.blank] = [[]] ∧
    ([[]] : List Line) ≠ [[' ']] := by
  decide

/-- C1 amended: `serialize(load(text)) = text` holds for texts in
canonical form — each element line carries no surrounding whitespace
(blank lines empty, comments and parameter values trimmed, parameter
names matching the reader's pattern without spaces, inline blocks with
exact `<name>`/`</name>` lines and trimmed body lines none of which
begins like the closer) — provided the Parameter/InlineBlock names are
pairwise distinct (otherwise `add` raises on the duplicate and load
fails).  Stated over the canonical document: loading its rendering
returns it unchanged, hence re-serializing reproduces the text. -/
theorem c1_roundtrip (doc : List Elem)
    (hcanon : ∀ e ∈ doc, CanonElem e = true)
    (hnodup : (doc.filterMap keyName).Nodup) :
    load (serialize doc) = some doc ∧
    (load (serialize doc)).map serialize = some (serialize doc) := by
  have h := loadFuel_serialize doc [] (serialize doc).length hcanon
    (by intro e _ _ x hx; simp at hx)
    (canon_pairwise doc hcanon hnodup) (le_refl _)
  rw [List.nil_append] at h
  have hload : load (serialize doc) = some doc := h
  exact ⟨hload, by rw [hload]; rfl⟩

/-- C1 witness: the round trip evaluated on a four-element canonical
profile with a comment, a parameter, a blank line and an inline block. -/
theorem c1_witness :
    load (serialize [Elem.comment ("# hi".toList),
      Elem.param ("cipher".toList) (some ("AES-256-CBC".toList)),
      Elem.blank,
      Elem.inline ("<ca>".toList) ["AAA".toList]])
    = some [Elem.comment ("# hi".toList),
      Elem.param ("cipher".toList) (some ("AES-256-CBC".toList)),
      Elem.blank,
      Elem.inline ("<ca>".toList) ["AAA".toList]] :=
  (c1_roundtrip _ (by decide) (by decide)).1
